import Mathlib

/-!
Verification of the EstTimexCorpora conversion and evaluation scripts.

The Python sources under `scripts/` are shallowly embedded below:
Python dictionaries with heterogeneous values become association lists over
an inductive value type, fallible code (asserts, raised exceptions, fatal
index errors) returns `Except String`, and text is a `List Char` indexed by
character offsets, matching Python string indexing.
-/

/-- A Python value as stored inside the scripts' annotation dictionaries:
strings, non-negative integers (all offsets handled by the scripts are
non-negative), booleans, `None`, or a nested (ordered) dictionary. -/
inductive AttrVal where
  | str (s : String)
  | nat (n : Nat)
  | bool (b : Bool)
  | noneV
  | odict (entries : List (String × AttrVal))
deriving Repr

mutual

/-- Structural boolean equality for `AttrVal`; models Python `==` on the
value shapes the scripts actually compare (strings, `None`, booleans,
offsets, nested dicts compared entrywise). -/
def AttrVal.beq : AttrVal → AttrVal → Bool
  | .str x, .str y => x == y
  | .nat x, .nat y => x == y
  | .bool x, .bool y => x == y
  | .noneV, .noneV => true
  | .odict xs, .odict ys => AttrVal.beqList xs ys
  | _, _ => false

/-- Entrywise boolean equality for nested dictionary entry lists. -/
def AttrVal.beqList : List (String × AttrVal) → List (String × AttrVal) → Bool
  | [], [] => true
  | (k1, v1) :: r1, (k2, v2) :: r2 =>
      k1 == k2 && AttrVal.beq v1 v2 && AttrVal.beqList r1 r2
  | _, _ => false

end

theorem AttrVal.beq_iff_eq_aux (n : Nat) :
    (∀ a b : AttrVal, sizeOf a ≤ n → (AttrVal.beq a b = true ↔ a = b)) ∧
    (∀ xs ys : List (String × AttrVal), sizeOf xs ≤ n →
      (AttrVal.beqList xs ys = true ↔ xs = ys)) := by
  induction n with
  | zero =>
      constructor
      · intro a b ha
        exfalso
        cases a <;> simp at ha <;> omega
      · intro xs ys hxs
        exfalso
        cases xs <;> simp at hxs <;> omega
  | succ n ih =>
      constructor
      · intro a b ha
        cases a <;> cases b <;>
          simp only [AttrVal.beq, beq_iff_eq, AttrVal.str.injEq,
            AttrVal.nat.injEq, AttrVal.bool.injEq, AttrVal.odict.injEq] <;>
          try simp
        case odict.odict xs ys =>
          apply ih.2
          simp at ha
          omega
      · intro xs ys hxs
        cases xs with
        | nil => cases ys <;> simp [AttrVal.beqList]
        | cons kv r1 =>
            obtain ⟨k1, v1⟩ := kv
            cases ys with
            | nil => simp [AttrVal.beqList]
            | cons kv2 r2 =>
                obtain ⟨k2, v2⟩ := kv2
                simp only [AttrVal.beqList, Bool.and_eq_true, beq_iff_eq,
                  List.cons.injEq, Prod.mk.injEq]
                have hv : sizeOf v1 ≤ n := by
                  simp at hxs
                  omega
                have hr : sizeOf r1 ≤ n := by
                  simp at hxs
                  omega
                rw [ih.1 v1 v2 hv, ih.2 r1 r2 hr]

theorem AttrVal.beq_iff_eq (a b : AttrVal) :
    AttrVal.beq a b = true ↔ a = b :=
  (AttrVal.beq_iff_eq_aux (sizeOf a)).1 a b (le_refl _)

instance : DecidableEq AttrVal :=
  fun a b => decidable_of_iff (AttrVal.beq a b = true) (AttrVal.beq_iff_eq a b)

/-- A Python dictionary with string keys: an association list in insertion
order, with unique keys maintained by `PyDict.set`. -/
abbrev PyDict := List (String × AttrVal)

/-- `d[k]` lookup returning the first binding of `k` (Python dicts have at
most one binding per key). -/
def PyDict.get? (d : PyDict) (k : String) : Option AttrVal :=
  match d with
  | [] => Option.none
  | (k', v) :: rest => if k' = k then some v else PyDict.get? rest k

/-- `k in d` membership test. -/
def PyDict.hasKey (d : PyDict) (k : String) : Bool :=
  (d.get? k).isSome

/-- `d[k] = v`: replaces the first binding of `k` in place, or appends a new
binding at the end (Python dicts keep the original position on update and
append new keys at the end). -/
def PyDict.set (d : PyDict) (k : String) (v : AttrVal) : PyDict :=
  match d with
  | [] => [(k, v)]
  | (k', v') :: rest =>
      if k' = k then (k', v) :: rest else (k', v') :: PyDict.set rest k v

/-- `del d[k]`: removes the binding of `k` (all bindings, which coincides
with Python for the unique-key dictionaries built by `PyDict.set`). -/
def PyDict.del (d : PyDict) (k : String) : PyDict :=
  d.filter (fun kv => kv.1 ≠ k)

theorem PyDict.get?_set_key (d : PyDict) (k : String) (v : AttrVal) :
    (d.set k v).get? k = some v := by
  induction d with
  | nil => simp [PyDict.set, PyDict.get?]
  | cons kv rest ih =>
      obtain ⟨k', v'⟩ := kv
      by_cases h : k' = k
      · simp [PyDict.set, PyDict.get?, h]
      · simp [PyDict.set, PyDict.get?, h, ih]

theorem PyDict.get?_set_ne (d : PyDict) (k k' : String) (v : AttrVal)
    (h : k' ≠ k) : (d.set k v).get? k' = d.get? k' := by
  have hkk : ¬ k = k' := fun h' => h h'.symm
  induction d with
  | nil => simp [PyDict.set, PyDict.get?, hkk]
  | cons kv rest ih =>
      obtain ⟨k0, v0⟩ := kv
      by_cases h0 : k0 = k
      · subst h0
        simp [PyDict.set, PyDict.get?, hkk]
      · simp only [PyDict.set, if_neg h0]
        by_cases h1 : k0 = k'
        · simp [PyDict.get?, h1]
        · simp [PyDict.get?, h1, ih]

theorem PyDict.set_nonempty (d : PyDict) (k : String) (v : AttrVal) :
    d.set k v ≠ [] := by
  cases d with
  | nil => simp [PyDict.set]
  | cons kv rest =>
      obtain ⟨k', v'⟩ := kv
      by_cases h : k' = k <;> simp [PyDict.set, h]

/-!
## C2 — Brat offset round trip

`create_annotations_file_content` (convert_ERY2012_json_to_brat.py) shifts a
span offset forward by the number of newlines occurring in the text before
that offset.  `_calculate_corrected_start_and_delta`
(convert_BRAT_to_estnltk_json.py) walks the plain text from the left,
subtracting one from the target position for every newline encountered
before it.  Text access out of bounds raises `IndexError` in Python, so the
embedding returns `Except`.
-/

/-- Number of newline characters in `text[:pos]` — the quantity
`text_obj.text[:off].count('\n')` used by `create_annotations_file_content`. -/
def newlinesBefore (text : List Char) (pos : Nat) : Nat :=
  (text.take pos).count '\n'

/-- Offset shift performed by `create_annotations_file_content` for one
offset (`tmx_start += newlines1`, `tmx_end += newlines2`). -/
def bratExportOffset (text : List Char) (off : Nat) : Nat :=
  off + newlinesBefore text off

/-- The `while i < corrected_start` loop of
`_calculate_corrected_start_and_delta`: `i` advances by one per step while
`corrected_start` and `delta` drop by one on every newline read; out-of-range
reads are Python `IndexError`s. -/
def correctedStartLoop (text : List Char) : Nat → Nat → Int →
    Except String (Nat × Int)
  | i, cs, delta =>
    if _h : i < cs then
      match text.get? i with
      | Option.none => .error "IndexError"
      | some symbol =>
          if symbol = '\n' then
            correctedStartLoop text (i + 1) (cs - 1) (delta - 1)
          else
            correctedStartLoop text (i + 1) cs delta
    else
      .ok (cs, delta)
termination_by i cs _ => cs - i

/-- `_calculate_corrected_start_and_delta(text, start)` from
convert_BRAT_to_estnltk_json.py. -/
def calculate_corrected_start_and_delta (text : List Char) (start : Nat) :
    Except String (Nat × Int) :=
  correctedStartLoop text 0 start 0

/-- Generalized invariant for the correction loop: starting at position `i`
with target `s + (newlines of text in [i, s))` the loop lands exactly on `s`. -/
theorem correctedStartLoop_reaches (text : List Char) (s : Nat)
    (hs : s ≤ text.length) :
    ∀ n i, s - i = n → i ≤ s → ∀ delta : Int,
      correctedStartLoop text i (s + ((text.take s).drop i).count '\n') delta =
        .ok (s, delta - ((text.take s).drop i).count '\n') := by
  intro n
  induction n with
  | zero =>
      intro i hn hle delta
      have hi : i = s := by omega
      subst hi
      have hnil : (text.take i).drop i = ([] : List Char) := by
        apply List.drop_eq_nil_of_le
        simp [List.length_take]
      rw [hnil]
      rw [correctedStartLoop]
      simp
  | succ n ih =>
      intro i hn hle delta
      have hi : i < s := by omega
      have hitext : i < text.length := lt_of_lt_of_le hi hs
      have hget : text.get? i = some (text.get ⟨i, hitext⟩) := List.get?_eq_get hitext
      have hdropeq : (text.take s).drop i =
          text.get ⟨i, hitext⟩ :: (text.take s).drop (i + 1) := by
        have hlen : i < (text.take s).length := by
          simp only [List.length_take]
          omega
        rw [List.drop_eq_getElem_cons hlen]
        congr 1
        simp [List.getElem_take]
      have hcount : ((text.take s).drop i).count '\n' =
          (if text.get ⟨i, hitext⟩ = '\n' then 1 else 0) +
            ((text.take s).drop (i + 1)).count '\n' := by
        rw [hdropeq, List.count_cons]
        by_cases hnl : text.get ⟨i, hitext⟩ = '\n' <;> simp [hnl] <;> omega
      rw [correctedStartLoop]
      have hlt : i < s + ((text.take s).drop i).count '\n' := by omega
      rw [dif_pos hlt, hget]
      simp only []
      by_cases hnl : text.get ⟨i, hitext⟩ = '\n'
      · rw [if_pos hnl]
        have harith : s + ((text.take s).drop i).count '\n' - 1 =
            s + ((text.take s).drop (i + 1)).count '\n' := by
          rw [hcount, if_pos hnl]; omega
        rw [harith]
        have := ih (i + 1) (by omega) (by omega) (delta - 1)
        rw [this]
        congr 2
        rw [hcount, if_pos hnl]
        push_cast
        ring
      · rw [if_neg hnl]
        have hceq : ((text.take s).drop i).count '\n' =
            ((text.take s).drop (i + 1)).count '\n' := by
          rw [hcount, if_neg hnl]; omega
        rw [hceq]
        exact ih (i + 1) (by omega) (by omega) delta

/-- C2: for every document text and every annotated span `[start, end)` in
it, exporting the two offsets with the newline shift of
`create_annotations_file_content` and feeding each exported offset back
through `_calculate_corrected_start_and_delta` reconstructs exactly the
original `start` and `end`. -/
theorem brat_offset_round_trip (text : List Char) (s e : Nat)
    (hse : s ≤ e) (he : e ≤ text.length) :
    calculate_corrected_start_and_delta text (bratExportOffset text s) =
      .ok (s, -(newlinesBefore text s : Int)) ∧
    calculate_corrected_start_and_delta text (bratExportOffset text e) =
      .ok (e, -(newlinesBefore text e : Int)) := by
  constructor
  · have := correctedStartLoop_reaches text s (le_trans hse he) s 0
      (by omega) (Nat.zero_le s) 0
    simpa [calculate_corrected_start_and_delta, bratExportOffset,
      newlinesBefore] using this
  · have := correctedStartLoop_reaches text e he e 0
      (by omega) (Nat.zero_le e) 0
    simpa [calculate_corrected_start_and_delta, bratExportOffset,
      newlinesBefore] using this

/-- Witness for C2 at a concrete text with a newline: the span `[4, 8)` of
`"ab\ncd\nef"` survives the export/import round trip. -/
theorem brat_offset_round_trip_witness :
    calculate_corrected_start_and_delta "ab\ncd\nef".data
        (bratExportOffset "ab\ncd\nef".data 4) = .ok (4, -1) ∧
    calculate_corrected_start_and_delta "ab\ncd\nef".data
        (bratExportOffset "ab\ncd\nef".data 8) = .ok (8, -2) := by
  have h := brat_offset_round_trip "ab\ncd\nef".data 4 8
    (by decide) (by decide)
  have h1 : newlinesBefore "ab\ncd\nef".data 4 = 1 := by decide
  have h2 : newlinesBefore "ab\ncd\nef".data 8 = 2 := by decide
  rw [h1] at h
  rw [h2] at h
  exact h

/-!
## C7 — extent metrics of `calculate_results`

`calculate_results` (eval_v1_6_timex_tagger.py, lines 328-337) computes
recall, precision and F1 for the relaxed and the strict extent alignment
from the integer counters accumulated in `diffs_dict`.  Python float
arithmetic is modelled over `ℚ`; the claims concern which formula is
computed and the zero-denominator defaults, not float rounding.
-/

/-- The `diffs_dict` counters read by the extent part of
`calculate_results`. -/
structure DiffsDict where
  unchanged_spans : Nat
  modified_spans : Nat
  gold_spans : Nat
  auto_spans : Nat
  gold_spans_lenient : Nat
  auto_spans_lenient : Nat
deriving Repr, DecidableEq

/-- Relaxed recall: `(unchanged_spans+modified_spans)/gold_spans_lenient if
gold_spans_lenient > 0 else 0`. -/
def relaxedRec (d : DiffsDict) : ℚ :=
  if d.gold_spans_lenient > 0 then
    ((d.unchanged_spans + d.modified_spans : Nat) : ℚ) / (d.gold_spans_lenient : ℚ)
  else 0

/-- Relaxed precision: same numerator over `auto_spans_lenient`. -/
def relaxedPrec (d : DiffsDict) : ℚ :=
  if d.auto_spans_lenient > 0 then
    ((d.unchanged_spans + d.modified_spans : Nat) : ℚ) / (d.auto_spans_lenient : ℚ)
  else 0

/-- Relaxed F1: `2*(rec*prec)/(rec+prec) if rec+prec > 0 else 0.0`. -/
def relaxedF1 (d : DiffsDict) : ℚ :=
  if relaxedRec d + relaxedPrec d > 0 then
    2 * (relaxedRec d * relaxedPrec d) / (relaxedRec d + relaxedPrec d)
  else 0

/-- Strict recall: `(unchanged_spans+modified_spans)/gold_spans if
gold_spans > 0 else 0`. -/
def strictRec (d : DiffsDict) : ℚ :=
  if d.gold_spans > 0 then
    ((d.unchanged_spans + d.modified_spans : Nat) : ℚ) / (d.gold_spans : ℚ)
  else 0

/-- Strict precision. -/
def strictPrec (d : DiffsDict) : ℚ :=
  if d.auto_spans > 0 then
    ((d.unchanged_spans + d.modified_spans : Nat) : ℚ) / (d.auto_spans : ℚ)
  else 0

/-- Strict F1. -/
def strictF1 (d : DiffsDict) : ℚ :=
  if strictRec d + strictPrec d > 0 then
    2 * (strictRec d * strictPrec d) / (strictRec d + strictPrec d)
  else 0

theorem relaxedRec_nonneg (d : DiffsDict) : 0 ≤ relaxedRec d := by
  unfold relaxedRec
  split <;> positivity

theorem relaxedPrec_nonneg (d : DiffsDict) : 0 ≤ relaxedPrec d := by
  unfold relaxedPrec
  split <;> positivity

theorem strictRec_nonneg (d : DiffsDict) : 0 ≤ strictRec d := by
  unfold strictRec
  split <;> positivity

theorem strictPrec_nonneg (d : DiffsDict) : 0 ≤ strictPrec d := by
  unfold strictPrec
  split <;> positivity

/-- C7: for both the strict and the relaxed extent metrics,
`calculate_results` computes recall as `(unchanged+modified)/gold count`,
precision as `(unchanged+modified)/system count` and F1 as the harmonic
combination `2*rec*prec/(rec+prec)`, and each of the three quantities is `0`
whenever its denominator is `0`. -/
theorem calculate_results_extent_formulas (d : DiffsDict) :
    (d.gold_spans_lenient ≠ 0 →
      relaxedRec d =
        ((d.unchanged_spans + d.modified_spans : Nat) : ℚ) / (d.gold_spans_lenient : ℚ)) ∧
    (d.gold_spans_lenient = 0 → relaxedRec d = 0) ∧
    (d.auto_spans_lenient ≠ 0 →
      relaxedPrec d =
        ((d.unchanged_spans + d.modified_spans : Nat) : ℚ) / (d.auto_spans_lenient : ℚ)) ∧
    (d.auto_spans_lenient = 0 → relaxedPrec d = 0) ∧
    (relaxedRec d + relaxedPrec d ≠ 0 →
      relaxedF1 d =
        2 * (relaxedRec d * relaxedPrec d) / (relaxedRec d + relaxedPrec d)) ∧
    (relaxedRec d + relaxedPrec d = 0 → relaxedF1 d = 0) ∧
    (d.gold_spans ≠ 0 →
      strictRec d =
        ((d.unchanged_spans + d.modified_spans : Nat) : ℚ) / (d.gold_spans : ℚ)) ∧
    (d.gold_spans = 0 → strictRec d = 0) ∧
    (d.auto_spans ≠ 0 →
      strictPrec d =
        ((d.unchanged_spans + d.modified_spans : Nat) : ℚ) / (d.auto_spans : ℚ)) ∧
    (d.auto_spans = 0 → strictPrec d = 0) ∧
    (strictRec d + strictPrec d ≠ 0 →
      strictF1 d =
        2 * (strictRec d * strictPrec d) / (strictRec d + strictPrec d)) ∧
    (strictRec d + strictPrec d = 0 → strictF1 d = 0) := by
  have hsum : 0 ≤ relaxedRec d + relaxedPrec d :=
    add_nonneg (relaxedRec_nonneg d) (relaxedPrec_nonneg d)
  have hsum' : 0 ≤ strictRec d + strictPrec d :=
    add_nonneg (strictRec_nonneg d) (strictPrec_nonneg d)
  refine ⟨?_, ?_, ?_, ?_, ?_, ?_, ?_, ?_, ?_, ?_, ?_, ?_⟩
  · intro h
    simp [relaxedRec, Nat.pos_of_ne_zero h]
  · intro h
    simp [relaxedRec, h]
  · intro h
    simp [relaxedPrec, Nat.pos_of_ne_zero h]
  · intro h
    simp [relaxedPrec, h]
  · intro h
    have : relaxedRec d + relaxedPrec d > 0 := lt_of_le_of_ne hsum (Ne.symm h)
    simp [relaxedF1, this]
  · intro h
    simp [relaxedF1, h]
  · intro h
    simp [strictRec, Nat.pos_of_ne_zero h]
  · intro h
    simp [strictRec, h]
  · intro h
    simp [strictPrec, Nat.pos_of_ne_zero h]
  · intro h
    simp [strictPrec, h]
  · intro h
    have : strictRec d + strictPrec d > 0 := lt_of_le_of_ne hsum' (Ne.symm h)
    simp [strictF1, this]
  · intro h
    simp [strictF1, h]

/-- Witness for C7 at concrete counters (2 unchanged, 1 modified, 4 gold
spans, 5 system spans strict; 3 and 4 lenient). -/
theorem calculate_results_extent_formulas_witness :
    relaxedRec ⟨2, 1, 4, 5, 3, 4⟩ = 1 ∧
    strictRec ⟨2, 1, 4, 5, 3, 4⟩ = 3 / 4 ∧
    (4 : Nat) ≠ 0 ∧
    strictPrec ⟨2, 1, 4, 5, 3, 4⟩ = ((2 + 1 : Nat) : ℚ) / (5 : ℚ) := by
  have h := calculate_results_extent_formulas ⟨2, 1, 4, 5, 3, 4⟩
  refine ⟨by norm_num [relaxedRec], by norm_num [strictRec], by norm_num, ?_⟩
  exact h.2.2.2.2.2.2.2.2.1 (by norm_num)

/-!
## C5 — `parse_tag_attributes`

Both convert_BRAT_to_estnltk_json.py (pattern `([^= ]+)='([^']+?)'`, assert
counting `'`) and tml_conv_utils.py (pattern `([^= ]+)="([^"]+?)"`, assert
counting `"`) define `parse_tag_attributes`; they differ only in the quote
character.  The regex is embedded directly: a match at position `p` is a
maximal nonempty run of non-`=`/non-space characters, then `=` and the
opening quote, then a shortest nonempty run of non-quote characters closed
by the quote (the lazy `+?` group); `finditer` scans left to right and
resumes after each match.
-/

/-- String-to-string association map used for the parsed attribute
dictionaries. -/
abbrev StrMap := List (String × String)

/-- First binding of `k`. -/
def StrMap.find? (m : StrMap) (k : String) : Option String :=
  match m with
  | [] => Option.none
  | (k', v) :: rest => if k' = k then some v else StrMap.find? rest k

/-- `m[k] = v` with Python dict update semantics. -/
def StrMap.set (m : StrMap) (k v : String) : StrMap :=
  match m with
  | [] => [(k, v)]
  | (k', v') :: rest =>
      if k' = k then (k', v) :: rest else (k', v') :: StrMap.set rest k v

theorem StrMap.set_of_find?_eq (m : StrMap) (k v : String)
    (h : m.find? k = some v) : m.set k v = m := by
  induction m with
  | nil => simp [StrMap.find?] at h
  | cons kv rest ih =>
      obtain ⟨k', v'⟩ := kv
      by_cases hk : k' = k
      · simp [StrMap.find?, hk] at h
        simp [StrMap.set, hk, h]
      · simp [StrMap.find?, hk] at h
        simp [StrMap.set, hk, ih h]

theorem StrMap.find?_append_right (m : StrMap) (k k0 v0 : String)
    (h : m.find? k = Option.none) :
    StrMap.find? (m ++ [(k0, v0)]) k = if k0 = k then some v0 else Option.none := by
  induction m with
  | nil => simp [StrMap.find?]
  | cons kv rest ih =>
      obtain ⟨k', v'⟩ := kv
      by_cases hk : k' = k
      · simp [StrMap.find?, hk] at h
      · simp [StrMap.find?, hk] at h ⊢
        exact ih h

theorem StrMap.find?_append_left (m : StrMap) (k k0 v0 v : String)
    (h : m.find? k = some v) :
    StrMap.find? (m ++ [(k0, v0)]) k = some v := by
  induction m with
  | nil => simp [StrMap.find?] at h
  | cons kv rest ih =>
      obtain ⟨k', v'⟩ := kv
      by_cases hk : k' = k
      · simp [StrMap.find?, hk] at h ⊢
        exact h
      · simp [StrMap.find?, hk] at h ⊢
        exact ih h

/-- One attempt of the attribute regex at position `p` of `s`: on success
returns the key, the value and the position just after the closing quote. -/
def matchAttrAt (qc : Char) (s : List Char) (p : Nat) :
    Option (String × String × Nat) :=
  let key := (s.drop p).takeWhile (fun c => c ≠ '=' && c ≠ ' ')
  if key.isEmpty then Option.none
  else
    let q := p + key.length
    match s.get? q, s.get? (q + 1) with
    | some c1, some c2 =>
        if c1 = '=' ∧ c2 = qc then
          let val := (s.drop (q + 2)).takeWhile (fun c => c ≠ qc)
          if val.isEmpty then Option.none
          else if s.get? (q + 2 + val.length) = some qc then
            some (key.asString, val.asString, q + 2 + val.length + 1)
          else Option.none
        else Option.none
    | _, _ => Option.none

theorem matchAttrAt_bounds (qc : Char) (s : List Char) (p : Nat)
    (k v : String) (e : Nat) (h : matchAttrAt qc s p = some (k, v, e)) :
    p < e ∧ e ≤ s.length := by
  unfold matchAttrAt at h
  set key := (s.drop p).takeWhile (fun c => c ≠ '=' && c ≠ ' ') with hkey
  by_cases hke : key.isEmpty
  · simp [hke] at h
  · simp only [if_neg hke] at h
    have hklen : 1 ≤ key.length := by
      cases hk : key with
      | nil => rw [hk] at hke; simp [List.isEmpty] at hke
      | cons a l => simp [hk]
    rcases h1 : s.get? (p + key.length) with _ | c1
    · rw [h1] at h; simp at h
    rcases h2 : s.get? (p + key.length + 1) with _ | c2
    · rw [h1, h2] at h; simp at h
    rw [h1, h2] at h
    simp only [] at h
    by_cases hc : c1 = '=' ∧ c2 = qc
    · rw [if_pos hc] at h
      set val := (s.drop (p + key.length + 2)).takeWhile (fun c => c ≠ qc) with hval
      by_cases hve : val.isEmpty
      · simp [hve] at h
      · simp only [if_neg hve] at h
        by_cases hq : s.get? (p + key.length + 2 + val.length) = some qc
        · rw [if_pos hq] at h
          have hlt : p + key.length + 2 + val.length < s.length := by
            rcases List.get?_eq_some.mp hq with ⟨hh, _⟩
            exact hh
          simp only [Option.some.injEq, Prod.mk.injEq] at h
          obtain ⟨_, _, he⟩ := h
          omega
        · rw [if_neg hq] at h; simp at h
    · rw [if_neg hc] at h; simp at h

/-- The scan loop of `finditer` for the attribute pattern: tries a match at
every position and continues right after the end of each successful match.
The structural `fuel` argument only bounds the number of iterations;
`matchAttrAt_bounds` shows each step advances the position, so
`s.length + 1` fuel is never exhausted when starting at position `0`. -/
def findAttrMatchesAux (qc : Char) (s : List Char) :
    Nat → Nat → List (String × String)
  | 0, _ => []
  | fuel + 1, p =>
      if p < s.length then
        match matchAttrAt qc s p with
        | some (k, v, e) => (k, v) :: findAttrMatchesAux qc s fuel e
        | Option.none => findAttrMatchesAux qc s fuel (p + 1)
      else []

/-- `finditer` of the attribute pattern over `s`, starting at position `p`. -/
def findAttrMatches (qc : Char) (s : List Char) (p : Nat) :
    List (String × String) :=
  findAttrMatchesAux qc s (s.length + 1) p

/-- The dictionary-building loop of `parse_tag_attributes`: raises
(`ConflictingAttributeError`) on a repeated key with a different value and
overwrites idempotently on a repeated key with the same value. -/
def insertAttrMatches (acc : StrMap) :
    List (String × String) → Except String StrMap
  | [] => .ok acc
  | (k, v) :: rest =>
      match acc.find? k with
      | some v' =>
          if v' ≠ v then .error "ConflictingAttributeError"
          else insertAttrMatches (acc.set k v) rest
      | Option.none => insertAttrMatches (acc ++ [(k, v)]) rest

/-- `parse_tag_attributes` parameterized by the quote character used both in
the regex and in the quote-parity assert. -/
def parseTagAttributesWith (qc : Char) (s : List Char) :
    Except String StrMap :=
  if s.count qc % 2 ≠ 0 then .error "AssertionError: uneven quotes"
  else insertAttrMatches [] (findAttrMatches qc s 0)

/-- `parse_tag_attributes` from tml_conv_utils.py (double quotes). -/
def parse_tag_attributes (s : String) : Except String StrMap :=
  parseTagAttributesWith '"' s.data

/-- `parse_tag_attributes` from convert_BRAT_to_estnltk_json.py (single
quotes). -/
def parse_tag_attributes_brat (s : String) : Except String StrMap :=
  parseTagAttributesWith '\'' s.data

/-- The key-to-value mapping described by the claim: the first binding of
every key, in order of first occurrence. -/
def firstOccurrences (acc : StrMap) : List (String × String) → StrMap
  | [] => acc
  | (k, v) :: rest =>
      if (acc.find? k).isSome then firstOccurrences acc rest
      else firstOccurrences (acc ++ [(k, v)]) rest

theorem insertAttrMatches_ok_of_consistent (l : List (String × String)) :
    ∀ acc : StrMap,
      (∀ k u v', acc.find? k = some u → (k, v') ∈ l → v' = u) →
      (∀ k v1 v2, (k, v1) ∈ l → (k, v2) ∈ l → v1 = v2) →
      insertAttrMatches acc l = .ok (firstOccurrences acc l) := by
  induction l with
  | nil => intro acc _ _; simp [insertAttrMatches, firstOccurrences]
  | cons kv rest ih =>
      intro acc hacc hpair
      obtain ⟨k, v⟩ := kv
      rcases hfind : acc.find? k with _ | u
      · rw [insertAttrMatches, hfind]
        rw [firstOccurrences, hfind]
        simp only [Option.isSome_none, Bool.false_eq_true, if_false]
        apply ih
        · intro k' u' v' hfind' hmem
          rcases hacc' : acc.find? k' with _ | u0
          · rw [StrMap.find?_append_right acc k' k v hacc'] at hfind'
            by_cases hkk : k = k'
            · subst hkk
              rw [if_pos rfl] at hfind'
              have hvv : v = v' := hpair k v v' (by simp) (by simp [hmem])
              have hvu : v = u' := by
                injection hfind' with hx
              exact hvv.symm.trans hvu
            · rw [if_neg hkk] at hfind'
              exact absurd hfind' (by simp)
          · rw [StrMap.find?_append_left acc k' k v u0 hacc'] at hfind'
            have huu : u0 = u' := by
              injection hfind' with hx
            exact hacc k' u' v' (huu ▸ hacc') (by simp [hmem])
        · intro k' v1 v2 h1 h2
          exact hpair k' v1 v2 (by simp [h1]) (by simp [h2])
      · have huv : v = u := hacc k u v hfind (by simp)
        rw [insertAttrMatches, hfind]
        simp only []
        rw [if_neg (by simp [huv])]
        rw [← huv] at hfind
        rw [StrMap.set_of_find?_eq acc k v hfind]
        rw [firstOccurrences]
        rw [hfind]
        simp only [Option.isSome_some, if_true]
        apply ih
        · intro k' u' v' hfind' hmem
          exact hacc k' u' v' hfind' (by simp [hmem])
        · intro k' v1 v2 h1 h2
          exact hpair k' v1 v2 (by simp [h1]) (by simp [h2])

theorem insertAttrMatches_ok_pairwise (l : List (String × String)) :
    ∀ acc res, insertAttrMatches acc l = .ok res →
      (∀ k u v', acc.find? k = some u → (k, v') ∈ l → v' = u) ∧
      (∀ k v1 v2, (k, v1) ∈ l → (k, v2) ∈ l → v1 = v2) := by
  induction l with
  | nil =>
      intro acc res _
      constructor
      · intro k u v' _ hmem; simp at hmem
      · intro k v1 v2 hmem; simp at hmem
  | cons kv rest ih =>
      intro acc res hok
      obtain ⟨k, v⟩ := kv
      rw [insertAttrMatches] at hok
      rcases hfind : acc.find? k with _ | u <;> rw [hfind] at hok <;>
        simp only [] at hok
      · -- fresh key: appended
        have ihres := ih (acc ++ [(k, v)]) res hok
        constructor
        · intro k' u' v' hfind' hmem
          rcases List.mem_cons.mp hmem with hh | ht
          · obtain ⟨hk, hv⟩ := Prod.mk.injEq .. ▸ hh
            injection hh with hh1 hh2
            subst hh1
            rw [hfind'] at hfind
            simp at hfind
          · have : StrMap.find? (acc ++ [(k, v)]) k' = some u' :=
              StrMap.find?_append_left acc k' k v u' hfind'
            exact ihres.1 k' u' v' this ht
        · intro k' v1 v2 h1 h2
          rcases List.mem_cons.mp h1 with hh1 | ht1 <;>
            rcases List.mem_cons.mp h2 with hh2 | ht2
          · injection hh1 with a1 b1
            injection hh2 with a2 b2
            subst b1; subst b2; rfl
          · injection hh1 with a1 b1
            subst a1; subst b1
            have hkv : StrMap.find? (acc ++ [(k', v1)]) k' = some v1 := by
              rw [StrMap.find?_append_right acc k' k' v1 hfind]
              simp
            exact (ihres.1 k' v1 v2 hkv ht2).symm
          · injection hh2 with a2 b2
            subst a2; subst b2
            have hkv : StrMap.find? (acc ++ [(k', v2)]) k' = some v2 := by
              rw [StrMap.find?_append_right acc k' k' v2 hfind]
              simp
            exact ihres.1 k' v2 v1 hkv ht1
          · exact ihres.2 k' v1 v2 ht1 ht2
      · -- existing key: must agree
        by_cases hne : u ≠ v
        · rw [if_pos hne] at hok; simp at hok
        · rw [if_neg hne] at hok
          push_neg at hne
          subst hne
          rw [StrMap.set_of_find?_eq acc k u hfind] at hok
          have ihres := ih acc res hok
          constructor
          · intro k' u' v' hfind' hmem
            rcases List.mem_cons.mp hmem with hh | ht
            · injection hh with a b
              subst a; subst b
              rw [hfind'] at hfind
              injection hfind with hf
              exact hf.symm
            · exact ihres.1 k' u' v' hfind' ht
          · intro k' v1 v2 h1 h2
            rcases List.mem_cons.mp h1 with hh1 | ht1 <;>
              rcases List.mem_cons.mp h2 with hh2 | ht2
            · injection hh1 with a1 b1
              injection hh2 with a2 b2
              subst b1; subst b2; rfl
            · injection hh1 with a1 b1
              subst a1; subst b1
              exact (ihres.1 k' v1 v2 hfind ht2).symm
            · injection hh2 with a2 b2
              subst a2; subst b2
              exact ihres.1 k' v2 v1 hfind ht1
            · exact ihres.2 k' v1 v2 ht1 ht2

/-- C5: `parse_tag_attributes` fails when the tag string contains an odd
number of quote characters; fails when the same key is matched twice with
two different values; and succeeds, returning the first-occurrence
key-to-value mapping, when every repetition of a key carries an identical
value.  Stated for the common parameterized body, which both script
variants (`parse_tag_attributes`, `parse_tag_attributes_brat`) instantiate. -/
theorem parse_tag_attributes_spec (qc : Char) (s : List Char) :
    (s.count qc % 2 = 1 →
      parseTagAttributesWith qc s = .error "AssertionError: uneven quotes") ∧
    (∀ k v1 v2, (k, v1) ∈ findAttrMatches qc s 0 →
      (k, v2) ∈ findAttrMatches qc s 0 → v1 ≠ v2 →
      ∃ msg, parseTagAttributesWith qc s = .error msg) ∧
    (s.count qc % 2 = 0 →
      (∀ k v1 v2, (k, v1) ∈ findAttrMatches qc s 0 →
        (k, v2) ∈ findAttrMatches qc s 0 → v1 = v2) →
      parseTagAttributesWith qc s =
        .ok (firstOccurrences [] (findAttrMatches qc s 0))) := by
  refine ⟨?_, ?_, ?_⟩
  · intro hodd
    unfold parseTagAttributesWith
    rw [if_pos (by omega)]
  · intro k v1 v2 h1 h2 hne
    unfold parseTagAttributesWith
    by_cases hcnt : s.count qc % 2 ≠ 0
    · rw [if_pos hcnt]
      exact ⟨_, rfl⟩
    · rw [if_neg hcnt]
      rcases hres : insertAttrMatches [] (findAttrMatches qc s 0) with msg | res
      · exact ⟨msg, rfl⟩
      · exfalso
        have := (insertAttrMatches_ok_pairwise _ [] res hres).2 k v1 v2 h1 h2
        exact hne this
  · intro heven hcons
    unfold parseTagAttributesWith
    rw [if_neg (by omega)]
    apply insertAttrMatches_ok_of_consistent
    · intro k u v' hfind _
      simp [StrMap.find?] at hfind
    · exact hcons

/-- Witness for C5 on the concrete tag
`<TIMEX type="DATE" type="DATE" value="1999">`: the repeated identical
`type` attribute is tolerated and the mapping is returned. -/
theorem parse_tag_attributes_spec_witness :
    ("<TIMEX type=\"DATE\" type=\"DATE\" value=\"1999\">".data.count '"' % 2 = 0) ∧
    parseTagAttributesWith '"' "<TIMEX type=\"DATE\" type=\"DATE\" value=\"1999\">".data =
      .ok [("type", "DATE"), ("value", "1999")] := by
  constructor
  · decide
  · have hmatches : findAttrMatches '"'
        "<TIMEX type=\"DATE\" type=\"DATE\" value=\"1999\">".data 0 =
        [("type", "DATE"), ("type", "DATE"), ("value", "1999")] := by decide
    have h := (parse_tag_attributes_spec '"'
      "<TIMEX type=\"DATE\" type=\"DATE\" value=\"1999\">".data).2.2
      (by decide)
      (by
        rw [hmatches]
        intro k v1 v2 h1 h2
        simp only [List.mem_cons, List.not_mem_nil, or_false, Prod.mk.injEq] at h1 h2
        rcases h1 with ⟨h1k, rfl⟩ | ⟨h1k, rfl⟩ | ⟨h1k, rfl⟩ <;>
          rcases h2 with ⟨h2k, rfl⟩ | ⟨h2k, rfl⟩ | ⟨h2k, rfl⟩ <;>
            first | rfl | (exfalso; rw [h1k] at h2k; simp at h2k) |
              (exfalso; rw [h2k] at h1k; simp at h1k))
    rw [h, hmatches]
    rfl

/-!
## C10 — `reduce_timex_layer`

`reduce_timex_layer` (eval_v1_6_timex_tagger.py, lines 60-86) copies each
span of a timexes layer (asserting exactly one annotation per span) into a
new layer with attributes `('type','value','mod','quant','freq',
'begin_point','end_point','part_of_interval')`; the three point attributes
have string values replaced by `None` and `OrderedDict` values reduced to
their `'type','value','mod','quant','freq'` entries, in that order.  The
spans of the input layer are in layer order, and the new layer receives
them in the same order.
-/

/-- One annotation of the (reduced) timexes layer schema. -/
structure TimexAnnotation where
  type_ : AttrVal
  value : AttrVal
  mod : AttrVal
  quant : AttrVal
  freq : AttrVal
  begin_point : AttrVal
  end_point : AttrVal
  part_of_interval : AttrVal
deriving DecidableEq, Repr

/-- A span of a timexes layer: offsets plus its annotations. -/
structure TimexSpan where
  start : Nat
  end_ : Nat
  annotations : List TimexAnnotation
deriving DecidableEq, Repr

/-- `[(k, value[k]) for k in ['type','value','mod','quant','freq'] if k in
value]` — the OrderedDict reduction inside `reduce_timex_layer`. -/
def odictReduce (d : List (String × AttrVal)) : List (String × AttrVal) :=
  ["type", "value", "mod", "quant", "freq"].filterMap
    (fun k => (PyDict.get? d k).map (fun x => (k, x)))

/-- The per-value treatment of `begin_point` / `end_point` /
`part_of_interval` in `reduce_timex_layer`: a string value becomes `None`;
an OrderedDict value is reduced by `odictReduce` when `reduce_ordered_dict`
is set; anything else (including `None`) is copied. -/
def reducePointValue (reduce_ordered_dict : Bool) (v : AttrVal) : AttrVal :=
  match v with
  | .str _ => .noneV
  | .odict d => if reduce_ordered_dict then .odict (odictReduce d) else .odict d
  | x => x

/-- The annotation written by `reduce_timex_layer` for one span. -/
def reduceTimexAnn (reduce_ordered_dict : Bool) (a : TimexAnnotation) :
    TimexAnnotation where
  type_ := a.type_
  value := a.value
  mod := a.mod
  quant := a.quant
  freq := a.freq
  begin_point := reducePointValue reduce_ordered_dict a.begin_point
  end_point := reducePointValue reduce_ordered_dict a.end_point
  part_of_interval := reducePointValue reduce_ordered_dict a.part_of_interval

/-- `reduce_timex_layer`: asserts one annotation per span and emits the
reduced spans in layer order. -/
def reduce_timex_layer (reduce_ordered_dict : Bool) :
    List TimexSpan → Except String (List TimexSpan)
  | [] => .ok []
  | s :: rest =>
      match s.annotations with
      | [a] =>
          match reduce_timex_layer reduce_ordered_dict rest with
          | .error msg => .error msg
          | .ok tail =>
              .ok ({ start := s.start, end_ := s.end_,
                     annotations := [reduceTimexAnn reduce_ordered_dict a] } :: tail)
      | _ => .error "AssertionError: len annotations"

/-- C10: on a layer in which each span carries exactly one annotation,
`reduce_timex_layer` succeeds and returns spans with the same offsets in
the same order, where string-valued point attributes become `None`,
OrderedDict-valued point attributes are reduced to their
`type`/`value`/`mod`/`quant`/`freq` entries in that order, and the five
basic attributes are copied unchanged. -/
theorem reduce_timex_layer_spec (spans : List TimexSpan)
    (h1 : ∀ s ∈ spans, s.annotations.length = 1) :
    ∃ out, reduce_timex_layer true spans = .ok out ∧
      out.length = spans.length ∧
      ∀ i, i < spans.length →
        ∃ sIn aIn, spans.get? i = some sIn ∧ sIn.annotations = [aIn] ∧
          out.get? i = some ⟨sIn.start, sIn.end_, [reduceTimexAnn true aIn]⟩ ∧
          (reduceTimexAnn true aIn).type_ = aIn.type_ ∧
          (reduceTimexAnn true aIn).value = aIn.value ∧
          (reduceTimexAnn true aIn).mod = aIn.mod ∧
          (reduceTimexAnn true aIn).quant = aIn.quant ∧
          (reduceTimexAnn true aIn).freq = aIn.freq ∧
          (∀ str, aIn.begin_point = .str str →
            reducePointValue true aIn.begin_point = .noneV) ∧
          (∀ d, aIn.begin_point = .odict d →
            reducePointValue true aIn.begin_point = .odict (odictReduce d)) ∧
          (∀ str, aIn.end_point = .str str →
            reducePointValue true aIn.end_point = .noneV) ∧
          (∀ d, aIn.end_point = .odict d →
            reducePointValue true aIn.end_point = .odict (odictReduce d)) ∧
          (∀ str, aIn.part_of_interval = .str str →
            reducePointValue true aIn.part_of_interval = .noneV) ∧
          (∀ d, aIn.part_of_interval = .odict d →
            reducePointValue true aIn.part_of_interval = .odict (odictReduce d)) := by
  induction spans with
  | nil =>
      refine ⟨[], rfl, rfl, ?_⟩
      intro i hi
      simp at hi
  | cons s rest ih =>
      have hs : s.annotations.length = 1 := h1 s (by simp)
      obtain ⟨a, ha⟩ : ∃ a, s.annotations = [a] := by
        cases hann : s.annotations with
        | nil => rw [hann] at hs; simp at hs
        | cons x xs =>
            cases xs with
            | nil => exact ⟨x, rfl⟩
            | cons y ys => rw [hann] at hs; simp at hs
      obtain ⟨tail, htail, hlen, hpoint⟩ := ih (fun t ht => h1 t (by simp [ht]))
      refine ⟨⟨s.start, s.end_, [reduceTimexAnn true a]⟩ :: tail, ?_, ?_, ?_⟩
      · rw [reduce_timex_layer, ha, htail]
      · simp [hlen]
      · intro i hi
        cases i with
        | zero =>
            refine ⟨s, a, rfl, ha, rfl, rfl, rfl, rfl, rfl, rfl,
              ?_, ?_, ?_, ?_, ?_, ?_⟩ <;>
              intro x hx <;> simp [reducePointValue, hx]
        | succ n =>
            have hn : n < rest.length := by simpa using hi
            obtain ⟨sIn, aIn, hg, hann, hout, hrest⟩ := hpoint n hn
            exact ⟨sIn, aIn, hg, hann, hout, hrest⟩

/-- Witness for C10: a concrete two-span layer with a string-valued
`begin_point` on one span and an OrderedDict `part_of_interval` on the
other. -/
theorem reduce_timex_layer_spec_witness :
    (∀ s ∈ [TimexSpan.mk 0 4
        [⟨.str "DATE", .str "1999", .noneV, .noneV, .noneV,
          .str "??", .noneV, .noneV⟩],
      TimexSpan.mk 6 10
        [⟨.str "DURATION", .str "P1Y", .noneV, .noneV, .noneV,
          .noneV, .noneV,
          .odict [("tid", .str "t3"), ("type", .str "DURATION")]⟩]],
      s.annotations.length = 1) ∧
    (∃ out, reduce_timex_layer true
      [TimexSpan.mk 0 4
        [⟨.str "DATE", .str "1999", .noneV, .noneV, .noneV,
          .str "??", .noneV, .noneV⟩],
       TimexSpan.mk 6 10
        [⟨.str "DURATION", .str "P1Y", .noneV, .noneV, .noneV,
          .noneV, .noneV,
          .odict [("tid", .str "t3"), ("type", .str "DURATION")]⟩]] = .ok out ∧
      out.length = 2 ∧ True) := by
  constructor
  · decide
  · obtain ⟨out, hok, hlen, _⟩ := reduce_timex_layer_spec
      [TimexSpan.mk 0 4
        [⟨.str "DATE", .str "1999", .noneV, .noneV, .noneV,
          .str "??", .noneV, .noneV⟩],
       TimexSpan.mk 6 10
        [⟨.str "DURATION", .str "P1Y", .noneV, .noneV, .noneV,
          .noneV, .noneV,
          .odict [("tid", .str "t3"), ("type", .str "DURATION")]⟩]]
      (by decide)
    exact ⟨out, hok, by rw [hlen]; rfl, trivial⟩

/-!
## C3 / C8 — Brat relation import and dangling references

`import_from_brat_folder` (convert_BRAT_to_estnltk_json.py) builds a
`tlinks` layer from the non-`has_Argument` relation records (lines 391-419)
and an `event_arguments` layer from the `has_Argument` records (lines
427-448).  Both loops `assert` that the two argument identifiers are keys
of `entity_id_to_loc_map`, compare the first corrected locations as Python
tuples, swap the argument locations when `arg1_loc[0] > arg2_loc[0]`, and
relabel directional relation types on a swap.  Attribute records with a
dangling entity reference (step 2 of `import_brat_annotations`, lines
223-236) are merely printed and skipped.
-/

/-- A relation record `(rel_arg1, rel_type, rel_arg2, rel_id)` as returned
by `_parse_relation_annotation`. -/
structure RelAnn where
  arg1 : String
  rel_type : String
  arg2 : String
  rel_id : String
deriving DecidableEq, Repr

/-- An annotation of the `tlinks` / `event_arguments` layer: the attributes
passed to `add_annotation` plus the combined span list `arg1_loc+arg2_loc`. -/
structure RelEntry where
  brat_id : String
  a_text : String
  rel_type : String
  b_text : String
  b_index : Nat
  spans : List (Nat × Nat)
deriving DecidableEq, Repr

/-- `entity_id_to_loc_map`: entity identifier to corrected location list. -/
abbrev EntityLocMap := List (String × List (Nat × Nat))

/-- Python tuple comparison `(a, b) > (c, d)`: lexicographic. -/
def pairGt (p q : Nat × Nat) : Bool :=
  p.1 > q.1 || (p.1 = q.1 && p.2 > q.2)

/-- `' '.join([content[s:e] for s,e in locs])`. -/
def sliceJoin (content : List Char) (locs : List (Nat × Nat)) : String :=
  String.intercalate " "
    (locs.map (fun se => (((content.drop se.1).take (se.2 - se.1)).asString)))

/-- The symmetric counterpart of a Tlink relation type under argument
reordering, as the claim states it: `AFTER`/`BEFORE` and
`INCLUDES`/`IS_INCLUDED` swap, every other type is kept unchanged. -/
def symmetricCounterpart (t : String) : String :=
  if t = "AFTER" then "BEFORE"
  else if t = "BEFORE" then "AFTER"
  else if t = "INCLUDES" then "IS_INCLUDED"
  else if t = "IS_INCLUDED" then "INCLUDES"
  else t

/-- Loop body of the `tlinks` loop: skips `has_Argument` records, asserts
both arguments resolve, reorders the argument locations when
`arg1_loc[0] > arg2_loc[0]` with the matching relation-type relabel, and
builds the layer annotation (indexing an empty location list is a Python
`IndexError`). -/
def processTlinkRel (content : List Char) (emap : EntityLocMap)
    (r : RelAnn) : Except String (Option RelEntry) :=
  if r.rel_type = "has_Argument" then .ok Option.none
  else
    match List.lookup r.arg1 emap, List.lookup r.arg2 emap with
    | some arg1_loc, some arg2_loc =>
        match arg1_loc, arg2_loc with
        | l1h :: _, l2h :: _ =>
            let swap := pairGt l1h l2h
            let a1 := if swap then arg2_loc else arg1_loc
            let a2 := if swap then arg1_loc else arg2_loc
            let rt := if swap then
                (if r.rel_type = "AFTER" then "BEFORE"
                 else if r.rel_type = "BEFORE" then "AFTER"
                 else if r.rel_type = "INCLUDES" then "IS_INCLUDED"
                 else if r.rel_type = "IS_INCLUDED" then "INCLUDES"
                 else r.rel_type)
              else r.rel_type
            .ok (some { brat_id := r.rel_id, a_text := sliceJoin content a1,
                        rel_type := rt, b_text := sliceJoin content a2,
                        b_index := a1.length, spans := a1 ++ a2 })
        | _, _ => .error "IndexError"
    | _, _ => .error "AssertionError: unknown relation argument"

/-- Loop body of the `event_arguments` loop: only `has_Argument` records,
relabelled to `is_Argument_of` on a swap. -/
def processArgumentRel (content : List Char) (emap : EntityLocMap)
    (r : RelAnn) : Except String (Option RelEntry) :=
  if r.rel_type ≠ "has_Argument" then .ok Option.none
  else
    match List.lookup r.arg1 emap, List.lookup r.arg2 emap with
    | some arg1_loc, some arg2_loc =>
        match arg1_loc, arg2_loc with
        | l1h :: _, l2h :: _ =>
            let swap := pairGt l1h l2h
            let a1 := if swap then arg2_loc else arg1_loc
            let a2 := if swap then arg1_loc else arg2_loc
            let rt := if swap then "is_Argument_of" else r.rel_type
            .ok (some { brat_id := r.rel_id, a_text := sliceJoin content a1,
                        rel_type := rt, b_text := sliceJoin content a2,
                        b_index := a1.length, spans := a1 ++ a2 })
        | _, _ => .error "IndexError"
    | _, _ => .error "AssertionError: unknown relation argument"

/-- The `tlinks` loop over all relation records. -/
def buildTlinksLayer (content : List Char) (emap : EntityLocMap) :
    List RelAnn → Except String (List RelEntry)
  | [] => .ok []
  | r :: rest =>
      match processTlinkRel content emap r with
      | .error m => .error m
      | .ok e =>
          match buildTlinksLayer content emap rest with
          | .error m => .error m
          | .ok tail => .ok (e.toList ++ tail)

/-- The `event_arguments` loop over all relation records. -/
def buildEventArgumentsLayer (content : List Char) (emap : EntityLocMap) :
    List RelAnn → Except String (List RelEntry)
  | [] => .ok []
  | r :: rest =>
      match processArgumentRel content emap r with
      | .error m => .error m
      | .ok e =>
          match buildEventArgumentsLayer content emap rest with
          | .error m => .error m
          | .ok tail => .ok (e.toList ++ tail)

/-- Both relation layers of `import_from_brat_folder`, in source order. -/
def buildBratRelationLayers (content : List Char) (emap : EntityLocMap)
    (rels : List RelAnn) : Except String (List RelEntry × List RelEntry) :=
  match buildTlinksLayer content emap rels with
  | .error m => .error m
  | .ok tlinks =>
      match buildEventArgumentsLayer content emap rels with
      | .error m => .error m
      | .ok args => .ok (tlinks, args)

theorem pairGt_false_le (p q : Nat × Nat) (h : pairGt p q = false) :
    p.1 ≤ q.1 := by
  unfold pairGt at h
  simp only [Bool.or_eq_false_iff, Bool.and_eq_false_iff,
    decide_eq_false_iff_not, not_lt] at h
  exact h.1

theorem pairGt_true_le (p q : Nat × Nat) (h : pairGt p q = true) :
    q.1 ≤ p.1 := by
  unfold pairGt at h
  simp only [Bool.or_eq_true, Bool.and_eq_true, decide_eq_true_eq] at h
  rcases h with h | ⟨h, _⟩
  · omega
  · omega

/-- C3: every relation record whose two arguments resolve to (non-empty)
entity locations yields a stored relation whose first argument starts no
later than its second (`Arg1.start <= Arg2.start`); and whenever the raw
input has `Arg1.start > Arg2.start`, the locations are swapped and the
output relation type is the symmetric counterpart of the input type
(`AFTER`/`BEFORE` and `INCLUDES`/`IS_INCLUDED` swapped, other Tlink types
unchanged, and `has_Argument` becomes `is_Argument_of` in the
`event_arguments` loop). -/
theorem brat_relation_reorder_spec (content : List Char)
    (emap : EntityLocMap) (r : RelAnn)
    (l1 l2 : List (Nat × Nat)) (p1 p2 : Nat × Nat) (t1 t2 : List (Nat × Nat))
    (hl1 : List.lookup r.arg1 emap = some l1)
    (hl2 : List.lookup r.arg2 emap = some l2)
    (he1 : l1 = p1 :: t1) (he2 : l2 = p2 :: t2) :
    (r.rel_type ≠ "has_Argument" →
      ∃ e, processTlinkRel content emap r = .ok (some e) ∧
        (∀ u v, e.spans.get? 0 = some u → e.spans.get? e.b_index = some v →
          u.1 ≤ v.1) ∧
        (p1.1 > p2.1 → e.spans = l2 ++ l1 ∧ e.b_index = l2.length ∧
          e.rel_type = symmetricCounterpart r.rel_type) ∧
        (pairGt p1 p2 = false → e.spans = l1 ++ l2 ∧ e.b_index = l1.length ∧
          e.rel_type = r.rel_type)) ∧
    (r.rel_type = "has_Argument" →
      ∃ e, processArgumentRel content emap r = .ok (some e) ∧
        (∀ u v, e.spans.get? 0 = some u → e.spans.get? e.b_index = some v →
          u.1 ≤ v.1) ∧
        (p1.1 > p2.1 → e.spans = l2 ++ l1 ∧ e.b_index = l2.length ∧
          e.rel_type = "is_Argument_of") ∧
        (pairGt p1 p2 = false → e.spans = l1 ++ l2 ∧ e.b_index = l1.length ∧
          e.rel_type = r.rel_type)) := by
  subst he1
  subst he2
  constructor
  · intro hna
    unfold processTlinkRel
    rw [if_neg hna, hl1, hl2]
    simp only []
    cases hsw : pairGt p1 p2 <;>
      simp only [hsw, Bool.false_eq_true, if_false, if_true]
    · refine ⟨_, rfl, ?_, ?_, ?_⟩
      · intro u v hu hv
        rw [List.cons_append, List.get?_cons_zero] at hu
        injection hu with hu
        subst hu
        rw [List.get?_append_right (le_refl _)] at hv
        rw [Nat.sub_self, List.get?_cons_zero] at hv
        injection hv with hv
        subst hv
        exact pairGt_false_le p1 p2 hsw
      · intro hgt
        exfalso
        have := pairGt_false_le p1 p2 hsw
        omega
      · intro _
        exact ⟨rfl, rfl, rfl⟩
    · refine ⟨_, rfl, ?_, ?_, ?_⟩
      · intro u v hu hv
        rw [List.cons_append, List.get?_cons_zero] at hu
        injection hu with hu
        subst hu
        rw [List.get?_append_right (le_refl _)] at hv
        rw [Nat.sub_self, List.get?_cons_zero] at hv
        injection hv with hv
        subst hv
        exact pairGt_true_le p1 p2 hsw
      · intro _
        exact ⟨rfl, rfl, rfl⟩
      · intro hf
        exact absurd hf (by simp)
  · intro hha
    unfold processArgumentRel
    rw [if_neg (by simp [hha]), hl1, hl2]
    simp only []
    cases hsw : pairGt p1 p2 <;>
      simp only [hsw, Bool.false_eq_true, if_false, if_true]
    · refine ⟨_, rfl, ?_, ?_, ?_⟩
      · intro u v hu hv
        rw [List.cons_append, List.get?_cons_zero] at hu
        injection hu with hu
        subst hu
        rw [List.get?_append_right (le_refl _)] at hv
        rw [Nat.sub_self, List.get?_cons_zero] at hv
        injection hv with hv
        subst hv
        exact pairGt_false_le p1 p2 hsw
      · intro hgt
        exfalso
        have := pairGt_false_le p1 p2 hsw
        omega
      · intro _
        exact ⟨rfl, rfl, rfl⟩
    · refine ⟨_, rfl, ?_, ?_, ?_⟩
      · intro u v hu hv
        rw [List.cons_append, List.get?_cons_zero] at hu
        injection hu with hu
        subst hu
        rw [List.get?_append_right (le_refl _)] at hv
        rw [Nat.sub_self, List.get?_cons_zero] at hv
        injection hv with hv
        subst hv
        exact pairGt_true_le p1 p2 hsw
      · intro _
        exact ⟨rfl, rfl, rfl⟩
      · intro hf
        exact absurd hf (by simp)

/-- Witness for C3: `R1 Tlink_AFTER Arg1:T2 Arg2:T1` where `T2` starts at
20 and `T1` at 5 — the arguments are swapped and the type becomes
`BEFORE`. -/
theorem brat_relation_reorder_spec_witness :
    List.lookup "T2" [("T1", [((5 : Nat), (9 : Nat))]), ("T2", [(20, 24)])] =
      some [(20, 24)] ∧
    (RelAnn.mk "T2" "AFTER" "T1" "R1").rel_type ≠ "has_Argument" ∧
    ∃ e, processTlinkRel "abc".data
        [("T1", [(5, 9)]), ("T2", [(20, 24)])]
        (RelAnn.mk "T2" "AFTER" "T1" "R1") = .ok (some e) ∧
      (∀ u v, e.spans.get? 0 = some u → e.spans.get? e.b_index = some v →
        u.1 ≤ v.1) ∧
      ((20 : Nat) > 5 → e.spans = [(5, 9)] ++ [(20, 24)] ∧
        e.b_index = List.length [((5 : Nat), (9 : Nat))] ∧
        e.rel_type = symmetricCounterpart "AFTER") ∧
      (pairGt (20, 24) (5, 9) = false → e.spans = [(20, 24)] ++ [(5, 9)] ∧
        e.b_index = List.length [((20 : Nat), (24 : Nat))] ∧
        e.rel_type = "AFTER") := by
  refine ⟨by decide, by decide, ?_⟩
  exact (brat_relation_reorder_spec "abc".data
    [("T1", [(5, 9)]), ("T2", [(20, 24)])]
    (RelAnn.mk "T2" "AFTER" "T1" "R1")
    [(20, 24)] [(5, 9)] (20, 24) (5, 9) [] []
    (by decide) (by decide) rfl rfl).1 (by decide)

/-- One entity annotation as collected by `import_brat_annotations`: the
identifier and the attribute dictionary.  (The merge of steps 2 and 3 reads
and writes only these two components of the collected 5-tuples; the entity
type and the raw locations are carried through unchanged and are omitted
here.) -/
structure EntityAnn where
  id : String
  attribs : PyDict
deriving DecidableEq, Repr

/-- An attribute record `(entity, a_name, a_value, a_id)` as returned by
`_parse_attrib_annotation`. -/
structure AttrAnn where
  entity : String
  name : String
  value : String
  a_id : String
deriving DecidableEq, Repr

/-- Inner loop of step 2 of `import_brat_annotations`: merges one attribute
record into the first entity with a matching identifier (raising
`ValueError` on a conflicting duplicate value) and reports whether a
matching entity was found. -/
def mergeAttrIntoEntities : List EntityAnn → AttrAnn →
    Except String (List EntityAnn × Bool)
  | [], _ => .ok ([], false)
  | ent :: rest, a =>
      if ent.id = a.entity then
        match ent.attribs.get? a.name with
        | some v0 =>
            if v0 ≠ .str a.value then
              .error "ValueError: conflicting values for entity attribute"
            else
              .ok ({ ent with attribs := ent.attribs.set a.name (.str a.value) } :: rest,
                true)
        | Option.none =>
            .ok ({ ent with attribs := ent.attribs.set a.name (.str a.value) } :: rest,
              true)
      else
        match mergeAttrIntoEntities rest a with
        | .error m => .error m
        | .ok (rest', found) => .ok (ent :: rest', found)

/-- Step 2 of `import_brat_annotations` over all attribute records; the
returned string list models the printed diagnostics for dangling entity
references. -/
def mergeAttrAnnotations : List EntityAnn → List AttrAnn →
    Except String (List EntityAnn × List String)
  | ents, [] => .ok (ents, [])
  | ents, a :: rest =>
      match mergeAttrIntoEntities ents a with
      | .error m => .error m
      | .ok (ents', found) =>
          match mergeAttrAnnotations ents' rest with
          | .error m => .error m
          | .ok (ents'', reports) =>
              .ok (ents'',
                (if found then [] else ["Cannot find entity " ++ a.entity]) ++ reports)

theorem mergeAttrIntoEntities_notfound (ents : List EntityAnn) (a : AttrAnn)
    (h : ∀ ent ∈ ents, ent.id ≠ a.entity) :
    mergeAttrIntoEntities ents a = .ok (ents, false) := by
  induction ents with
  | nil => rfl
  | cons ent rest ih =>
      rw [mergeAttrIntoEntities]
      rw [if_neg (h ent (by simp))]
      rw [ih (fun e he => h e (by simp [he]))]

theorem processTlinkRel_error_of_dangling (content : List Char)
    (emap : EntityLocMap) (r : RelAnn) (hna : r.rel_type ≠ "has_Argument")
    (hd : List.lookup r.arg1 emap = Option.none ∨
      List.lookup r.arg2 emap = Option.none) :
    ∃ m, processTlinkRel content emap r = .error m := by
  unfold processTlinkRel
  rw [if_neg hna]
  rcases hd with hd | hd
  · rcases hlk : List.lookup r.arg2 emap with _ | l2 <;> rw [hd] <;>
      exact ⟨_, rfl⟩
  · rcases hlk : List.lookup r.arg1 emap with _ | l1 <;> rw [hd] <;>
      exact ⟨_, rfl⟩

theorem processArgumentRel_error_of_dangling (content : List Char)
    (emap : EntityLocMap) (r : RelAnn) (hha : r.rel_type = "has_Argument")
    (hd : List.lookup r.arg1 emap = Option.none ∨
      List.lookup r.arg2 emap = Option.none) :
    ∃ m, processArgumentRel content emap r = .error m := by
  unfold processArgumentRel
  rw [if_neg (by simp [hha])]
  rcases hd with hd | hd
  · rcases hlk : List.lookup r.arg2 emap with _ | l2 <;> rw [hd] <;>
      exact ⟨_, rfl⟩
  · rcases hlk : List.lookup r.arg1 emap with _ | l1 <;> rw [hd] <;>
      exact ⟨_, rfl⟩

theorem buildTlinksLayer_error_of_dangling (content : List Char)
    (emap : EntityLocMap) (rels : List RelAnn)
    (hex : ∃ r ∈ rels, r.rel_type ≠ "has_Argument" ∧
      (List.lookup r.arg1 emap = Option.none ∨
        List.lookup r.arg2 emap = Option.none)) :
    ∃ m, buildTlinksLayer content emap rels = .error m := by
  induction rels with
  | nil => obtain ⟨r, hm, _⟩ := hex; simp at hm
  | cons r0 rest ih =>
      obtain ⟨r, hm, hna, hd⟩ := hex
      rcases List.mem_cons.mp hm with rfl | hmem
      · obtain ⟨m, hm⟩ := processTlinkRel_error_of_dangling content emap r hna hd
        refine ⟨m, ?_⟩
        rw [buildTlinksLayer, hm]
      · rcases hstep : processTlinkRel content emap r0 with m | e
        · exact ⟨m, by rw [buildTlinksLayer, hstep]⟩
        · obtain ⟨m, hm⟩ := ih ⟨r, hmem, hna, hd⟩
          exact ⟨m, by rw [buildTlinksLayer, hstep, hm]⟩

theorem buildEventArgumentsLayer_error_of_dangling (content : List Char)
    (emap : EntityLocMap) (rels : List RelAnn)
    (hex : ∃ r ∈ rels, r.rel_type = "has_Argument" ∧
      (List.lookup r.arg1 emap = Option.none ∨
        List.lookup r.arg2 emap = Option.none)) :
    ∃ m, buildEventArgumentsLayer content emap rels = .error m := by
  induction rels with
  | nil => obtain ⟨r, hm, _⟩ := hex; simp at hm
  | cons r0 rest ih =>
      obtain ⟨r, hm, hha, hd⟩ := hex
      rcases List.mem_cons.mp hm with rfl | hmem
      · obtain ⟨m, hm⟩ := processArgumentRel_error_of_dangling content emap r hha hd
        refine ⟨m, ?_⟩
        rw [buildEventArgumentsLayer, hm]
      · rcases hstep : processArgumentRel content emap r0 with m | e
        · exact ⟨m, by rw [buildEventArgumentsLayer, hstep]⟩
        · obtain ⟨m, hm⟩ := ih ⟨r, hmem, hha, hd⟩
          exact ⟨m, by rw [buildEventArgumentsLayer, hstep, hm]⟩

/-- C8 (amended): an attribute record whose entity reference resolves to no
collected entity is reported and skipped, and the merge continues
non-fatally with the remaining records; a relation record with a dangling
argument reference, in contrast, makes the relation-layer construction fail
(it hits a Python `assert`, so the import of the file aborts rather than
skipping the record). -/
theorem brat_dangling_reference_handling :
    (∀ (ents : List EntityAnn) (a : AttrAnn) (rest : List AttrAnn),
      (∀ ent ∈ ents, ent.id ≠ a.entity) →
      mergeAttrAnnotations ents (a :: rest) =
        Except.map (fun p => (p.1, ("Cannot find entity " ++ a.entity) :: p.2))
          (mergeAttrAnnotations ents rest)) ∧
    (∀ (content : List Char) (emap : EntityLocMap) (rels : List RelAnn),
      (∃ r ∈ rels, List.lookup r.arg1 emap = Option.none ∨
        List.lookup r.arg2 emap = Option.none) →
      ∃ msg, buildBratRelationLayers content emap rels = .error msg) := by
  constructor
  · intro ents a rest h
    rw [mergeAttrAnnotations]
    rw [mergeAttrIntoEntities_notfound ents a h]
    rcases hrec : mergeAttrAnnotations ents rest with m | p
    · simp only []
      rw [hrec]
      rfl
    · obtain ⟨e2, r2⟩ := p
      simp only []
      rw [hrec]
      rfl
  · intro content emap rels hex
    obtain ⟨r, hm, hd⟩ := hex
    by_cases hha : r.rel_type = "has_Argument"
    · rcases htl : buildTlinksLayer content emap rels with m | tl
      · exact ⟨m, by rw [buildBratRelationLayers, htl]⟩
      · obtain ⟨m, hm2⟩ := buildEventArgumentsLayer_error_of_dangling content
          emap rels ⟨r, hm, hha, hd⟩
        exact ⟨m, by rw [buildBratRelationLayers, htl, hm2]⟩
    · obtain ⟨m, hm2⟩ := buildTlinksLayer_error_of_dangling content emap rels
        ⟨r, hm, hha, hd⟩
      exact ⟨m, by rw [buildBratRelationLayers, hm2]⟩

/-- Counterexample for C8 as stated: relation `R1 Tlink_BEFORE Arg1:T9
Arg2:T1` references the unknown entity `T9`; the import does not skip the
record and continue — it fails on the membership assert. -/
theorem brat_dangling_relation_fatal_counterexample :
    buildBratRelationLayers "abc".data [("T1", [(0, 3)])]
      [RelAnn.mk "T9" "BEFORE" "T1" "R1"] =
      .error "AssertionError: unknown relation argument" := by
  rfl

/-- Witness for the amended C8: a dangling attribute record `A1 type T9
DATE` against a corpus containing only `T1` is reported and skipped. -/
theorem brat_dangling_reference_handling_witness :
    (∀ ent ∈ [EntityAnn.mk "T1" []], ent.id ≠ "T9") ∧
    mergeAttrAnnotations [EntityAnn.mk "T1" []]
        [AttrAnn.mk "T9" "type" "DATE" "A1"] =
      Except.map (fun p => (p.1, ("Cannot find entity " ++ "T9") :: p.2))
        (mergeAttrAnnotations [EntityAnn.mk "T1" []] []) := by
  refine ⟨by decide, ?_⟩
  exact brat_dangling_reference_handling.1 [EntityAnn.mk "T1" []]
    (AttrAnn.mk "T9" "type" "DATE" "A1") [] (by decide)

/-!
## C1 / C6 / C9 — the relaxed matching of `aggregate_differences`

`aggregate_differences` (eval_v1_6_timex_tagger.py, lines 109-176) reads
the strict span counts from the diff layer's metadata and then runs a
greedy conflict-resolution loop over `iterate_diff_conflicts(diff_layer,
'span_status')`.  `iterate_diff_conflicts` belongs to estnltk (an external
collaborator per the spec); its output is modelled from the spec as the
list of (missing gold span, extra system span) pairs with overlapping
spans, grouped per gold span in encounter order.  The loop body itself
(lines 141-165) is embedded verbatim below: score computation, the
`defaultdict(int)` score read, the one-sided replacement condition, the
`span_status` asserts, and the release of a previously held system span.
-/

/-- One annotation of the diff layer: `span_status` plus the eight
attributes compared by the matching loop. -/
structure DiffAnn where
  span_status : String
  type_ : AttrVal
  value : AttrVal
  mod : AttrVal
  quant : AttrVal
  freq : AttrVal
  begin_point : AttrVal
  end_point : AttrVal
  part_of_interval : AttrVal
deriving DecidableEq, Repr

/-- A span of the diff layer. -/
structure DiffSpan where
  start : Nat
  end_ : Nat
  annotations : List DiffAnn
deriving DecidableEq, Repr

/-- `(span.start, span.end)` — the dictionary keys of the matching loop. -/
abbrev SpanKey := Nat × Nat

/-- The key of a span. -/
def DiffSpan.key (s : DiffSpan) : SpanKey := (s.start, s.end_)

/-- Generic association-list lookup keyed by `SpanKey` (first binding). -/
def KList.get? {β : Type} : List (SpanKey × β) → SpanKey → Option β
  | [], _ => Option.none
  | (k', v) :: rest, k => if k' = k then some v else KList.get? rest k

/-- Python dict update: replace the first binding in place or append. -/
def KList.set {β : Type} : List (SpanKey × β) → SpanKey → β → List (SpanKey × β)
  | [], k, v => [(k, v)]
  | (k', v') :: rest, k, v =>
      if k' = k then (k', v) :: rest else (k', v') :: KList.set rest k v

/-- Python `del`: removes the binding of `k`. -/
def KList.eraseKey {β : Type} (l : List (SpanKey × β)) (k : SpanKey) :
    List (SpanKey × β) :=
  l.filter (fun kv => kv.1 ≠ k)

/-- Match score of a conflict pair: 2 points per equal primary attribute
(`type`, `value`), 1 point per equal secondary attribute (`mod`, `quant`,
`freq`, `begin_point`, `end_point`, `part_of_interval`); Python `==`, so
two `None` values are equal. -/
def matchScore (g a : DiffAnn) : Nat :=
  (if g.type_ = a.type_ then 2 else 0) +
  (if g.value = a.value then 2 else 0) +
  (if g.mod = a.mod then 1 else 0) +
  (if g.quant = a.quant then 1 else 0) +
  (if g.freq = a.freq then 1 else 0) +
  (if g.begin_point = a.begin_point then 1 else 0) +
  (if g.end_point = a.end_point then 1 else 0) +
  (if g.part_of_interval = a.part_of_interval then 1 else 0)

/-- The score formula exactly as the claim words it: 2 points for each of
`type` and `value` that agree plus 1 point for each agreeing secondary
attribute. -/
def claimScore (g a : DiffAnn) : Nat :=
  2 * ((if g.type_ = a.type_ then 1 else 0) + (if g.value = a.value then 1 else 0)) +
  ((if g.mod = a.mod then 1 else 0) + (if g.quant = a.quant then 1 else 0) +
   (if g.freq = a.freq then 1 else 0) + (if g.begin_point = a.begin_point then 1 else 0) +
   (if g.end_point = a.end_point then 1 else 0) +
   (if g.part_of_interval = a.part_of_interval then 1 else 0))

theorem matchScore_eq_claimScore (g a : DiffAnn) :
    matchScore g a = claimScore g a := by
  unfold matchScore claimScore
  split_ifs <;> omega

/-- State of the matching loop: `map_gold_to_auto`, `map_auto_to_gold`
(values are the `[gold, auto]` pairs the code stores) and
`map_gold_to_auto_score`. -/
structure MatchState where
  mga : List (SpanKey × (DiffSpan × DiffSpan))
  mag : List (SpanKey × (DiffSpan × DiffSpan))
  scores : List (SpanKey × Nat)
deriving DecidableEq, Repr

/-- `map_gold_to_auto_score[gold_key]` on a `defaultdict(int)`: returns the
stored value, inserting a `0` entry on a miss exactly as Python does. -/
def scoreRead (scores : List (SpanKey × Nat)) (k : SpanKey) :
    Nat × List (SpanKey × Nat) :=
  match KList.get? scores k with
  | some v => (v, scores)
  | Option.none => (0, scores ++ [(k, 0)])

/-- One iteration of the relaxed-matching loop (lines 141-165) on the
conflict pair `(gold, auto)`: computes the score from `annotations[0]` of
both spans (`IndexError` when absent), tests
`map_gold_to_auto_score[gold_key] < score and auto_key not in
map_auto_to_gold`, asserts the two span statuses, releases the system span
previously held by this gold span (the stored values are always the
two-element `[gold, auto]` lists, so the `len == 2` guard of the source
always holds), and records the new match. -/
def relaxedMatchStep (st : MatchState) (c : DiffSpan × DiffSpan) :
    Except String MatchState :=
  match c.1.annotations, c.2.annotations with
  | ga :: _, aa :: _ =>
      let score := matchScore ga aa
      let gold_key := c.1.key
      let auto_key := c.2.key
      let rd := scoreRead st.scores gold_key
      if rd.1 < score ∧ (KList.get? st.mag auto_key) = Option.none then
        if ga.span_status ≠ "missing" then
          .error "AssertionError: span_status missing"
        else if aa.span_status ≠ "extra" then
          .error "AssertionError: span_status extra"
        else
          match KList.get? st.mga gold_key with
          | some pr =>
              match KList.get? st.mag pr.2.key with
              | some _ =>
                  .ok { mga := KList.set st.mga gold_key c,
                        mag := KList.set (KList.eraseKey st.mag pr.2.key) auto_key c,
                        scores := KList.set rd.2 gold_key score }
              | Option.none => .error "KeyError"
          | Option.none =>
              .ok { mga := KList.set st.mga gold_key c,
                    mag := KList.set st.mag auto_key c,
                    scores := KList.set rd.2 gold_key score }
      else .ok { st with scores := rd.2 }
  | _, _ => .error "IndexError"

/-- The matching loop over the conflict list. -/
def relaxedMatchLoop : MatchState → List (DiffSpan × DiffSpan) →
    Except String MatchState
  | st, [] => .ok st
  | st, c :: rest =>
      match relaxedMatchStep st c with
      | .error m => .error m
      | .ok st' => relaxedMatchLoop st' rest

/-- The relaxed matching of `aggregate_differences`, from empty maps. -/
def relaxedMatch (conflicts : List (DiffSpan × DiffSpan)) :
    Except String MatchState :=
  relaxedMatchLoop ⟨[], [], []⟩ conflicts

/-- The diff layer's metadata counters read at lines 121-124. -/
structure DiffMeta where
  unchanged_spans : Nat
  modified_spans : Nat
  missing_spans : Nat
  extra_spans : Nat
deriving DecidableEq, Repr

/-- The extent statistics accumulated into `diffs_dict` (lines 126-176):
the strict counts and the lenient counts obtained after subtracting the
number of matched pairs. -/
structure ExtentStats where
  gold_spans : Nat
  auto_spans : Nat
  unchanged_spans : Nat
  modified_spans : Nat
  missing_spans : Nat
  extra_spans : Nat
  missing_spans_lenient : Int
  extra_spans_lenient : Int
  gold_spans_lenient : Int
  auto_spans_lenient : Int
deriving DecidableEq, Repr

/-- The TIMEX-extent part of `aggregate_differences` (lines 121-176): runs
the relaxed matching, asserts `len(map_gold_to_auto) ==
len(map_auto_to_gold)`, subtracts the matched-pair count from the missing
and extra counts, and asserts both stay non-negative. -/
def aggregate_differences_extent (meta : DiffMeta)
    (conflicts : List (DiffSpan × DiffSpan)) : Except String ExtentStats :=
  match relaxedMatch conflicts with
  | .error m => .error m
  | .ok st =>
      if st.mga.length ≠ st.mag.length then
        .error "AssertionError: map size mismatch"
      else
        let missing : Int := (meta.missing_spans : Int) - st.mga.length
        let extra : Int := (meta.extra_spans : Int) - st.mga.length
        if missing < 0 then .error "AssertionError: missing_spans"
        else if extra < 0 then .error "AssertionError: extra_spans"
        else
          .ok { gold_spans := meta.unchanged_spans + meta.modified_spans +
                  meta.missing_spans,
                auto_spans := meta.unchanged_spans + meta.modified_spans +
                  meta.extra_spans,
                unchanged_spans := meta.unchanged_spans,
                modified_spans := meta.modified_spans,
                missing_spans := meta.missing_spans,
                extra_spans := meta.extra_spans,
                missing_spans_lenient := missing,
                extra_spans_lenient := extra,
                gold_spans_lenient := (meta.unchanged_spans : Int) +
                  meta.modified_spans + missing,
                auto_spans_lenient := (meta.unchanged_spans : Int) +
                  meta.modified_spans + extra }

theorem KList.get?_set_self {β : Type} (l : List (SpanKey × β)) (k : SpanKey)
    (v : β) : KList.get? (KList.set l k v) k = some v := by
  induction l with
  | nil => simp [KList.set, KList.get?]
  | cons kv rest ih =>
      obtain ⟨k', v'⟩ := kv
      by_cases h : k' = k
      · simp [KList.set, KList.get?, h]
      · simp [KList.set, KList.get?, h, ih]

theorem KList.get?_set_other {β : Type} (l : List (SpanKey × β))
    (k k' : SpanKey) (v : β) (h : k' ≠ k) :
    KList.get? (KList.set l k v) k' = KList.get? l k' := by
  have hkk : ¬ k = k' := fun h' => h h'.symm
  induction l with
  | nil => simp [KList.set, KList.get?, hkk]
  | cons kv rest ih =>
      obtain ⟨k0, v0⟩ := kv
      by_cases h0 : k0 = k
      · subst h0
        simp [KList.set, KList.get?, hkk]
      · simp only [KList.set, if_neg h0]
        by_cases h1 : k0 = k'
        · simp [KList.get?, h1]
        · simp [KList.get?, h1, ih]

theorem KList.get?_eq_none_iff {β : Type} (l : List (SpanKey × β))
    (k : SpanKey) : KList.get? l k = Option.none ↔ ∀ e ∈ l, e.1 ≠ k := by
  induction l with
  | nil => simp [KList.get?]
  | cons kv rest ih =>
      obtain ⟨k', v'⟩ := kv
      by_cases h : k' = k
      · subst h
        simp [KList.get?]
      · simp [KList.get?, h, ih]

theorem KList.set_of_get?_none {β : Type} (l : List (SpanKey × β))
    (k : SpanKey) (v : β) (h : KList.get? l k = Option.none) :
    KList.set l k v = l ++ [(k, v)] := by
  induction l with
  | nil => simp [KList.set]
  | cons kv rest ih =>
      obtain ⟨k', v'⟩ := kv
      by_cases hk : k' = k
      · simp [KList.get?, hk] at h
      · simp [KList.get?, hk] at h
        simp [KList.set, hk, ih h]

theorem KList.get?_append_left {β : Type} (l1 l2 : List (SpanKey × β))
    (k : SpanKey) (v : β) (h : KList.get? l1 k = some v) :
    KList.get? (l1 ++ l2) k = some v := by
  induction l1 with
  | nil => simp [KList.get?] at h
  | cons kv rest ih =>
      obtain ⟨k', v'⟩ := kv
      by_cases hk : k' = k
      · simp [KList.get?, hk] at h ⊢
        exact h
      · simp [KList.get?, hk] at h ⊢
        exact ih h

theorem KList.get?_append_none {β : Type} (l1 l2 : List (SpanKey × β))
    (k : SpanKey) (h : KList.get? l1 k = Option.none) :
    KList.get? (l1 ++ l2) k = KList.get? l2 k := by
  induction l1 with
  | nil => simp [KList.get?]
  | cons kv rest ih =>
      obtain ⟨k', v'⟩ := kv
      by_cases hk : k' = k
      · simp [KList.get?, hk] at h
      · simp [KList.get?, hk] at h ⊢
        exact ih h

theorem KList.set_append_single {β : Type} (l : List (SpanKey × β))
    (k : SpanKey) (v w : β) (h : KList.get? l k = Option.none) :
    KList.set (l ++ [(k, w)]) k v = l ++ [(k, v)] := by
  induction l with
  | nil => simp [KList.set]
  | cons kv rest ih =>
      obtain ⟨k', v'⟩ := kv
      by_cases hk : k' = k
      · simp [KList.get?, hk] at h
      · simp [KList.get?, hk] at h
        simp [KList.set, hk, ih h]

theorem KList.eraseKey_of_get?_none {β : Type} (l : List (SpanKey × β))
    (k : SpanKey) (h : KList.get? l k = Option.none) :
    KList.eraseKey l k = l := by
  rw [KList.get?_eq_none_iff] at h
  unfold KList.eraseKey
  rw [List.filter_eq_self]
  intro e he
  simpa using h e he

theorem KList.eraseKey_append_single {β : Type} (l : List (SpanKey × β))
    (k : SpanKey) (v : β) (h : KList.get? l k = Option.none) :
    KList.eraseKey (l ++ [(k, v)]) k = l := by
  unfold KList.eraseKey
  rw [List.filter_append]
  have h1 : List.filter (fun kv => kv.1 ≠ k) l = l := by
    rw [List.filter_eq_self]
    intro e he
    rw [KList.get?_eq_none_iff] at h
    simpa using h e he
  have h2 : List.filter (fun kv => kv.1 ≠ k) [(k, v)] = [] := by
    simp [List.filter]
  rw [h1, h2, List.append_nil]

theorem KList.mem_set {β : Type} (l : List (SpanKey × β)) (k : SpanKey)
    (v : β) (e : SpanKey × β) (h : e ∈ KList.set l k v) :
    e = (k, v) ∨ e ∈ l := by
  induction l with
  | nil => simp [KList.set] at h; simp [h]
  | cons kv rest ih =>
      obtain ⟨k', v'⟩ := kv
      by_cases hk : k' = k
      · simp [KList.set, hk] at h
        rcases h with h | h
        · subst hk; left; simp [h]
        · right; simp [h]
      · simp [KList.set, hk] at h
        rcases h with h | h
        · right; simp [h]
        · rcases ih h with h' | h'
          · left; exact h'
          · right; simp [h']

/-- C9: every pair retained by the relaxed matching has a strictly positive
match score; two `None` values of an attribute compare equal and do
contribute to the score; and when every conflict pair scores `0` (all eight
compared attribute values differ), nothing is matched and the lenient
missing/extra counts equal the strict ones. -/
theorem relaxed_match_positive_scores :
    (∀ (conflicts : List (DiffSpan × DiffSpan)) (st : MatchState),
      relaxedMatch conflicts = .ok st →
      ∀ e ∈ st.mga, ∃ ga gt aa at_, e.2.1.annotations = ga :: gt ∧
        e.2.2.annotations = aa :: at_ ∧ 0 < matchScore ga aa) ∧
    (∀ g a : DiffAnn, g.begin_point = AttrVal.noneV →
      a.begin_point = AttrVal.noneV → 1 ≤ matchScore g a) ∧
    (∀ (meta : DiffMeta) (conflicts : List (DiffSpan × DiffSpan)),
      (∀ c ∈ conflicts, c.1.annotations ≠ [] ∧ c.2.annotations ≠ []) →
      (∀ c ∈ conflicts, ∀ ga gt aa at_, c.1.annotations = ga :: gt →
        c.2.annotations = aa :: at_ → matchScore ga aa = 0) →
      ∃ st stats, relaxedMatch conflicts = .ok st ∧ st.mga = [] ∧
        aggregate_differences_extent meta conflicts = .ok stats ∧
        stats.missing_spans_lenient = meta.missing_spans ∧
        stats.extra_spans_lenient = meta.extra_spans) := by
  have hstep : ∀ (st : MatchState) (c : DiffSpan × DiffSpan) (st' : MatchState),
      relaxedMatchStep st c = .ok st' →
      (∀ e ∈ st.mga, ∃ ga gt aa at_, e.2.1.annotations = ga :: gt ∧
        e.2.2.annotations = aa :: at_ ∧ 0 < matchScore ga aa) →
      ∀ e ∈ st'.mga, ∃ ga gt aa at_, e.2.1.annotations = ga :: gt ∧
        e.2.2.annotations = aa :: at_ ∧ 0 < matchScore ga aa := by
    intro st c st' hok hinv e he
    unfold relaxedMatchStep at hok
    rcases hga : c.1.annotations with _ | ⟨ga, gt⟩ <;> rw [hga] at hok
    · exact absurd hok (by simp)
    rcases haa : c.2.annotations with _ | ⟨aa, at_⟩ <;> rw [haa] at hok
    · exact absurd hok (by simp)
    simp only [] at hok
    by_cases hcond : (scoreRead st.scores c.1.key).1 < matchScore ga aa ∧
        KList.get? st.mag c.2.key = Option.none
    · rw [if_pos hcond] at hok
      by_cases hm : ga.span_status ≠ "missing"
      · rw [if_pos hm] at hok; exact absurd hok (by simp)
      rw [if_neg hm] at hok
      by_cases hx : aa.span_status ≠ "extra"
      · rw [if_pos hx] at hok; exact absurd hok (by simp)
      rw [if_neg hx] at hok
      have hpos : 0 < matchScore ga aa := Nat.lt_of_le_of_lt (Nat.zero_le _) hcond.1
      rcases hmga : KList.get? st.mga c.1.key with _ | pr <;> rw [hmga] at hok <;>
        simp only [] at hok
      · injection hok with hok
        subst hok
        rcases KList.mem_set st.mga c.1.key c e he with he' | he'
        · subst he'
          exact ⟨ga, gt, aa, at_, hga, haa, hpos⟩
        · exact hinv e he'
      · rcases hmag : KList.get? st.mag pr.2.key with _ | w <;> rw [hmag] at hok
        · exact absurd hok (by simp)
        · injection hok with hok
          subst hok
          rcases KList.mem_set st.mga c.1.key c e he with he' | he'
          · subst he'
            exact ⟨ga, gt, aa, at_, hga, haa, hpos⟩
          · exact hinv e he'
    · rw [if_neg hcond] at hok
      injection hok with hok
      subst hok
      exact hinv e he
  have hloop : ∀ (cs : List (DiffSpan × DiffSpan)) (st st' : MatchState),
      relaxedMatchLoop st cs = .ok st' →
      (∀ e ∈ st.mga, ∃ ga gt aa at_, e.2.1.annotations = ga :: gt ∧
        e.2.2.annotations = aa :: at_ ∧ 0 < matchScore ga aa) →
      ∀ e ∈ st'.mga, ∃ ga gt aa at_, e.2.1.annotations = ga :: gt ∧
        e.2.2.annotations = aa :: at_ ∧ 0 < matchScore ga aa := by
    intro cs
    induction cs with
    | nil =>
        intro st st' hok hinv
        rw [relaxedMatchLoop] at hok
        injection hok with hok
        subst hok
        exact hinv
    | cons c rest ih =>
        intro st st' hok hinv
        rw [relaxedMatchLoop] at hok
        rcases hst1 : relaxedMatchStep st c with m | st1 <;> rw [hst1] at hok
        · exact absurd hok (by simp)
        · exact ih st1 st' hok (hstep st c st1 hst1 hinv)
  refine ⟨?_, ?_, ?_⟩
  · intro conflicts st hok
    exact hloop conflicts ⟨[], [], []⟩ st hok (by intro e he; simp at he)
  · intro g a hg ha
    unfold matchScore
    rw [hg, ha]
    have h1 : (if (AttrVal.noneV : AttrVal) = AttrVal.noneV then (1 : Nat) else 0) = 1 :=
      if_pos rfl
    rw [h1]
    omega
  · intro meta conflicts hne hzero
    have hrun : ∀ (cs : List (DiffSpan × DiffSpan)) (st : MatchState),
        (∀ c ∈ cs, c.1.annotations ≠ [] ∧ c.2.annotations ≠ []) →
        (∀ c ∈ cs, ∀ ga gt aa at_, c.1.annotations = ga :: gt →
          c.2.annotations = aa :: at_ → matchScore ga aa = 0) →
        ∃ s', relaxedMatchLoop st cs = .ok ⟨st.mga, st.mag, s'⟩ := by
      intro cs
      induction cs with
      | nil => intro st _ _; exact ⟨st.scores, rfl⟩
      | cons c rest ih =>
          intro st hne' hz'
          obtain ⟨h1, h2⟩ := hne' c (by simp)
          rcases hga : c.1.annotations with _ | ⟨ga, gt⟩
          · exact absurd hga h1
          rcases haa : c.2.annotations with _ | ⟨aa, at_⟩
          · exact absurd haa h2
          have hz0 : matchScore ga aa = 0 := hz' c (by simp) ga gt aa at_ hga haa
          have hstep0 : relaxedMatchStep st c =
              .ok { st with scores := (scoreRead st.scores c.1.key).2 } := by
            unfold relaxedMatchStep
            rw [hga, haa]
            simp only []
            rw [if_neg (by rw [hz0]; intro hcc; exact absurd hcc.1 (by omega))]
          rw [relaxedMatchLoop, hstep0]
          exact ih { st with scores := (scoreRead st.scores c.1.key).2 }
            (fun c' hc' => hne' c' (by simp [hc']))
            (fun c' hc' => hz' c' (by simp [hc']))
    obtain ⟨s', hs'⟩ := hrun conflicts ⟨[], [], []⟩ hne hzero
    have hre : relaxedMatch conflicts = .ok ⟨[], [], s'⟩ := hs'
    have hagg : ∃ stats, aggregate_differences_extent meta conflicts = .ok stats ∧
        stats.missing_spans_lenient = meta.missing_spans ∧
        stats.extra_spans_lenient = meta.extra_spans := by
      unfold aggregate_differences_extent
      rw [hre]
      simp only []
      rw [if_neg (by simp)]
      rw [if_neg (by simp)]
      rw [if_neg (by simp)]
      exact ⟨_, rfl, by simp, by simp⟩
    obtain ⟨stats, h1, h2, h3⟩ := hagg
    exact ⟨⟨[], [], s'⟩, stats, hre, rfl, h1, h2, h3⟩

theorem KList.get?_eq_some_mem {β : Type} (l : List (SpanKey × β))
    (k : SpanKey) (v : β) (h : KList.get? l k = some v) : (k, v) ∈ l := by
  induction l with
  | nil => simp [KList.get?] at h
  | cons kv rest ih =>
      obtain ⟨k', v'⟩ := kv
      by_cases hk : k' = k
      · subst hk
        simp [KList.get?] at h
        simp [h]
      · simp [KList.get?, hk] at h
        simp [ih h]

theorem KList.mem_eraseKey {β : Type} (l : List (SpanKey × β)) (k : SpanKey)
    (e : SpanKey × β) : e ∈ KList.eraseKey l k ↔ e ∈ l ∧ e.1 ≠ k := by
  unfold KList.eraseKey
  simp [List.mem_filter]

theorem KList.get?_eraseKey_self {β : Type} (l : List (SpanKey × β))
    (k : SpanKey) : KList.get? (KList.eraseKey l k) k = Option.none := by
  rw [KList.get?_eq_none_iff]
  intro e he
  exact ((KList.mem_eraseKey l k e).mp he).2

theorem KList.get?_eraseKey_other {β : Type} (l : List (SpanKey × β))
    (k k' : SpanKey) (h : k' ≠ k) :
    KList.get? (KList.eraseKey l k) k' = KList.get? l k' := by
  induction l with
  | nil => rfl
  | cons kv rest ih =>
      obtain ⟨k0, v0⟩ := kv
      unfold KList.eraseKey at ih ⊢
      rw [List.filter_cons]
      by_cases hk0 : k0 = k
      · rw [if_neg (by simp [hk0])]
        rw [ih]
        have hne : ¬ k0 = k' := by rw [hk0]; exact fun hc => h hc.symm
        simp [KList.get?, hne]
      · rw [if_pos (by simp [hk0])]
        by_cases hk1 : k0 = k'
        · simp [KList.get?, hk1]
        · simp only [KList.get?, if_neg hk1]
          simp only [ne_eq] at ih
          simpa using ih

theorem KList.keys_set_of_isSome {β : Type} (l : List (SpanKey × β))
    (k : SpanKey) (v : β) (h : (KList.get? l k).isSome) :
    (KList.set l k v).map Prod.fst = l.map Prod.fst := by
  induction l with
  | nil => simp [KList.get?] at h
  | cons kv rest ih =>
      obtain ⟨k', v'⟩ := kv
      by_cases hk : k' = k
      · simp [KList.set, hk]
      · simp [KList.get?, hk] at h
        simp [KList.set, hk, ih h]

theorem KList.length_set_of_isSome {β : Type} (l : List (SpanKey × β))
    (k : SpanKey) (v : β) (h : (KList.get? l k).isSome) :
    (KList.set l k v).length = l.length := by
  have := KList.keys_set_of_isSome l k v h
  have h1 : ((KList.set l k v).map Prod.fst).length = (l.map Prod.fst).length := by
    rw [this]
  simpa using h1

theorem KList.length_eraseKey_of_nodup {β : Type} (l : List (SpanKey × β))
    (k : SpanKey) (v : β) (hn : (l.map Prod.fst).Nodup)
    (h : KList.get? l k = some v) :
    (KList.eraseKey l k).length + 1 = l.length := by
  induction l with
  | nil => simp [KList.get?] at h
  | cons kv rest ih =>
      obtain ⟨k', v'⟩ := kv
      simp only [List.map_cons, List.nodup_cons] at hn
      unfold KList.eraseKey
      rw [List.filter_cons]
      by_cases hk : k' = k
      · subst hk
        rw [if_neg (by simp)]
        have hrest : KList.eraseKey rest k' = rest := by
          apply KList.eraseKey_of_get?_none
          rw [KList.get?_eq_none_iff]
          intro e he hc
          exact hn.1 (hc ▸ List.mem_map_of_mem Prod.fst he)
        show (KList.eraseKey rest k').length + 1 = _
        rw [hrest, List.length_cons]
      · rw [if_pos (by simp [hk])]
        simp only [KList.get?, if_neg hk] at h
        have hih := ih hn.2 h
        show ((k', v') :: KList.eraseKey rest k).length + 1 = _
        simp only [List.length_cons]
        omega

theorem KList.mem_set_iff_of_nodup {β : Type} (l : List (SpanKey × β))
    (k : SpanKey) (v : β) (hn : (l.map Prod.fst).Nodup) (e : SpanKey × β) :
    e ∈ KList.set l k v ↔ e = (k, v) ∨ (e ∈ l ∧ e.1 ≠ k) := by
  induction l with
  | nil =>
      simp [KList.set]
  | cons kv rest ih =>
      obtain ⟨k', v'⟩ := kv
      simp only [List.map_cons, List.nodup_cons] at hn
      by_cases hk : k' = k
      · subst hk
        simp only [KList.set, if_pos rfl]
        constructor
        · intro h
          rcases List.mem_cons.mp h with h | h
          · left; exact h
          · right
            refine ⟨List.mem_cons_of_mem _ h, ?_⟩
            intro hc
            exact hn.1 (hc ▸ List.mem_map_of_mem Prod.fst h)
        · intro h
          rcases h with h | ⟨hm, hne⟩
          · exact h ▸ List.mem_cons_self _ _
          · rcases List.mem_cons.mp hm with h | h
            · exact absurd (congrArg Prod.fst h) (by simpa using hne)
            · exact List.mem_cons_of_mem _ h
      · simp only [KList.set, if_neg hk]
        constructor
        · intro h
          rcases List.mem_cons.mp h with h | h
          · right
            refine ⟨h ▸ List.mem_cons_self _ _, ?_⟩
            rw [h]
            exact hk
          · rcases (ih hn.2).mp h with h | ⟨hm, hne⟩
            · left; exact h
            · right; exact ⟨List.mem_cons_of_mem _ hm, hne⟩
        · intro h
          rcases h with h | ⟨hm, hne⟩
          · exact List.mem_cons_of_mem _ ((ih hn.2).mpr (Or.inl h))
          · rcases List.mem_cons.mp hm with h | h
            · exact h ▸ List.mem_cons_self _ _
            · exact List.mem_cons_of_mem _ ((ih hn.2).mpr (Or.inr ⟨h, hne⟩))

theorem KList.keys_eraseKey {β : Type} (l : List (SpanKey × β)) (k : SpanKey) :
    (KList.eraseKey l k).map Prod.fst =
      (l.map Prod.fst).filter (fun x => x ≠ k) := by
  induction l with
  | nil => rfl
  | cons kv rest ih =>
      obtain ⟨k', v'⟩ := kv
      unfold KList.eraseKey at ih ⊢
      rw [List.filter_cons, List.map_cons, List.filter_cons]
      by_cases hk : k' = k
      · rw [if_neg (by simp [hk]), if_neg (by simp [hk])]
        exact ih
      · rw [if_pos (by simp [hk]), if_pos (by simp [hk])]
        simp only [List.map_cons]
        rw [ih]

/-- Invariant of the matching loop: `map_gold_to_auto` and
`map_auto_to_gold` are inverse dictionaries holding the same `[gold, auto]`
values, keyed by the gold span's and the system span's offsets
respectively. -/
structure MatchInv (st : MatchState) : Prop where
  sizeEq : st.mga.length = st.mag.length
  mgaNodup : (st.mga.map Prod.fst).Nodup
  magNodup : (st.mag.map Prod.fst).Nodup
  mgaKey : ∀ e ∈ st.mga, e.1 = e.2.1.key
  magKey : ∀ e ∈ st.mag, e.1 = e.2.2.key
  mgaToMag : ∀ e ∈ st.mga, KList.get? st.mag e.2.2.key = some e.2
  magToMga : ∀ e ∈ st.mag, KList.get? st.mga e.2.1.key = some e.2

theorem matchInv_init : MatchInv ⟨[], [], []⟩ := by
  refine ⟨rfl, List.nodup_nil, List.nodup_nil, ?_, ?_, ?_, ?_⟩ <;>
    intro e he <;> simp at he

theorem relaxedMatchStep_preserves_inv (st : MatchState)
    (c : DiffSpan × DiffSpan) (st' : MatchState)
    (hok : relaxedMatchStep st c = .ok st') (hinv : MatchInv st) :
    MatchInv st' ∧
    (∀ e ∈ st'.mga, e ∈ st.mga ∨ e.1 = c.1.key) ∧
    (∀ e ∈ st'.mag, e ∈ st.mag ∨ e.1 = c.2.key) := by
  unfold relaxedMatchStep at hok
  rcases hga : c.1.annotations with _ | ⟨ga, gt⟩ <;> rw [hga] at hok
  · exact absurd hok (by simp)
  rcases haa : c.2.annotations with _ | ⟨aa, at_⟩ <;> rw [haa] at hok
  · exact absurd hok (by simp)
  simp only [] at hok
  by_cases hcond : (scoreRead st.scores c.1.key).1 < matchScore ga aa ∧
      KList.get? st.mag c.2.key = Option.none
  · rw [if_pos hcond] at hok
    by_cases hm : ga.span_status ≠ "missing"
    · rw [if_pos hm] at hok; exact absurd hok (by simp)
    rw [if_neg hm] at hok
    by_cases hx : aa.span_status ≠ "extra"
    · rw [if_pos hx] at hok; exact absurd hok (by simp)
    rw [if_neg hx] at hok
    have hmagNone : KList.get? st.mag c.2.key = Option.none := hcond.2
    have hmagKeyFresh : c.2.key ∉ st.mag.map Prod.fst := by
      intro hc
      rcases List.mem_map.mp hc with ⟨e, he, hke⟩
      rw [KList.get?_eq_none_iff] at hmagNone
      exact hmagNone e he hke
    rcases hmga : KList.get? st.mga c.1.key with _ | pr <;> rw [hmga] at hok <;>
      simp only [] at hok
    · -- gold span matched for the first time: fresh entries in both maps
      injection hok with hok
      subst hok
      have hmgaApp : KList.set st.mga c.1.key c = st.mga ++ [(c.1.key, c)] :=
        KList.set_of_get?_none _ _ _ hmga
      have hmagApp : KList.set st.mag c.2.key c = st.mag ++ [(c.2.key, c)] :=
        KList.set_of_get?_none _ _ _ hmagNone
      have hmgaKeyFresh : c.1.key ∉ st.mga.map Prod.fst := by
        intro hc
        rcases List.mem_map.mp hc with ⟨e, he, hke⟩
        rw [KList.get?_eq_none_iff] at hmga
        exact hmga e he hke
      refine ⟨⟨?_, ?_, ?_, ?_, ?_, ?_, ?_⟩, ?_, ?_⟩
      · simp only [hmgaApp, hmagApp, List.length_append, List.length_cons,
          List.length_nil, hinv.sizeEq]
      · rw [hmgaApp]
        simp only [List.map_append, List.map_cons, List.map_nil]
        rw [List.nodup_append]
        refine ⟨hinv.mgaNodup, List.nodup_singleton _, ?_⟩
        intro a ha
        simp only [List.mem_singleton]
        intro hc
        exact hmgaKeyFresh (hc ▸ ha)
      · rw [hmagApp]
        simp only [List.map_append, List.map_cons, List.map_nil]
        rw [List.nodup_append]
        refine ⟨hinv.magNodup, List.nodup_singleton _, ?_⟩
        intro a ha
        simp only [List.mem_singleton]
        intro hc
        exact hmagKeyFresh (hc ▸ ha)
      · intro e he
        rw [hmgaApp] at he
        rcases List.mem_append.mp he with he | he
        · exact hinv.mgaKey e he
        · simp only [List.mem_singleton] at he
          subst he
          rfl
      · intro e he
        rw [hmagApp] at he
        rcases List.mem_append.mp he with he | he
        · exact hinv.magKey e he
        · simp only [List.mem_singleton] at he
          subst he
          rfl
      · intro e he
        simp only [hmgaApp, hmagApp] at he ⊢
        rcases List.mem_append.mp he with he | he
        · exact KList.get?_append_left _ _ _ _ (hinv.mgaToMag e he)
        · simp only [List.mem_singleton] at he
          subst he
          rw [KList.get?_append_none _ _ _ hmagNone]
          simp [KList.get?]
      · intro e he
        simp only [hmgaApp, hmagApp] at he ⊢
        rcases List.mem_append.mp he with he | he
        · exact KList.get?_append_left _ _ _ _ (hinv.magToMga e he)
        · simp only [List.mem_singleton] at he
          subst he
          rw [KList.get?_append_none _ _ _ hmga]
          simp [KList.get?]
      · intro e he
        simp only [hmgaApp] at he
        rcases List.mem_append.mp he with he | he
        · exact Or.inl he
        · simp only [List.mem_singleton] at he
          subst he
          exact Or.inr rfl
      · intro e he
        simp only [hmagApp] at he
        rcases List.mem_append.mp he with he | he
        · exact Or.inl he
        · simp only [List.mem_singleton] at he
          subst he
          exact Or.inr rfl
    · -- gold span already matched: release the old system span
      have hprMem : (c.1.key, pr) ∈ st.mga := KList.get?_eq_some_mem _ _ _ hmga
      have hprGold : c.1.key = pr.1.key := hinv.mgaKey _ hprMem
      have hmagPr : KList.get? st.mag pr.2.key = some pr := by
        simpa using hinv.mgaToMag _ hprMem
      rw [hmagPr] at hok
      simp only [] at hok
      injection hok with hok
      subst hok
      have hprNe : pr.2.key ≠ c.2.key := by
        intro hc
        rw [hc, hmagNone] at hmagPr
        exact absurd hmagPr (by simp)
      have hENone : KList.get? (KList.eraseKey st.mag pr.2.key) c.2.key =
          Option.none := by
        rw [KList.get?_eraseKey_other _ _ _ (fun hc => hprNe hc.symm)]
        exact hmagNone
      have hmagApp : KList.set (KList.eraseKey st.mag pr.2.key) c.2.key c =
          KList.eraseKey st.mag pr.2.key ++ [(c.2.key, c)] :=
        KList.set_of_get?_none _ _ _ hENone
      have hmgaSome : (KList.get? st.mga c.1.key).isSome := by
        rw [hmga]; rfl
      refine ⟨⟨?_, ?_, ?_, ?_, ?_, ?_, ?_⟩, ?_, ?_⟩
      · rw [KList.length_set_of_isSome _ _ _ hmgaSome]
        rw [hmagApp]
        simp only [List.length_append, List.length_cons, List.length_nil]
        have herl := KList.length_eraseKey_of_nodup st.mag pr.2.key pr
          hinv.magNodup hmagPr
        have hse := hinv.sizeEq
        omega
      · rw [KList.keys_set_of_isSome _ _ _ hmgaSome]
        exact hinv.mgaNodup
      · rw [hmagApp]
        simp only [List.map_append, List.map_cons, List.map_nil]
        rw [List.nodup_append]
        refine ⟨?_, List.nodup_singleton _, ?_⟩
        · rw [KList.keys_eraseKey]
          exact hinv.magNodup.filter _
        · intro a ha
          simp only [List.mem_singleton]
          intro hc
          subst hc
          rw [KList.keys_eraseKey] at ha
          exact hmagKeyFresh (List.mem_of_mem_filter ha)
      · intro e he
        rcases KList.mem_set_iff_of_nodup st.mga c.1.key c hinv.mgaNodup e
            |>.mp he with he | ⟨he, _⟩
        · subst he; rfl
        · exact hinv.mgaKey e he
      · intro e he
        rw [hmagApp] at he
        rcases List.mem_append.mp he with he | he
        · exact hinv.magKey e ((KList.mem_eraseKey _ _ _).mp he).1
        · simp only [List.mem_singleton] at he
          subst he
          rfl
      · intro e he
        rcases KList.mem_set_iff_of_nodup st.mga c.1.key c hinv.mgaNodup e
            |>.mp he with he | ⟨he, hne⟩
        · subst he
          simp only [hmagApp]
          rw [KList.get?_append_none _ _ _ hENone]
          simp [KList.get?]
        · have hold := hinv.mgaToMag e he
          have hne2 : e.2.2.key ≠ pr.2.key := by
            intro hc
            rw [hc, hmagPr] at hold
            injection hold with hold
            exact hne (by
              rw [hinv.mgaKey e he, ← hold, ← hprGold])
          have hne3 : e.2.2.key ≠ c.2.key := by
            intro hc
            rw [hc, hmagNone] at hold
            exact absurd hold (by simp)
          simp only [hmagApp]
          apply KList.get?_append_left
          rw [KList.get?_eraseKey_other _ _ _ hne2]
          exact hold
      · intro e he
        rw [hmagApp] at he
        rcases List.mem_append.mp he with he | he
        · obtain ⟨heMag, heKey⟩ := (KList.mem_eraseKey _ _ _).mp he
          have hold := hinv.magToMga e heMag
          have hne : e.2.1.key ≠ c.1.key := by
            intro hc
            rw [hc, hmga] at hold
            injection hold with hold
            exact heKey (by rw [hinv.magKey e heMag, ← hold])
          rw [KList.get?_set_other _ _ _ _ hne]
          exact hold
        · simp only [List.mem_singleton] at he
          subst he
          simp only []
          rw [KList.get?_set_self]
      · intro e he
        rcases KList.mem_set_iff_of_nodup st.mga c.1.key c hinv.mgaNodup e
            |>.mp he with he | ⟨he, _⟩
        · subst he
          exact Or.inr rfl
        · exact Or.inl he
      · intro e he
        rw [hmagApp] at he
        rcases List.mem_append.mp he with he | he
        · exact Or.inl ((KList.mem_eraseKey _ _ _).mp he).1
        · simp only [List.mem_singleton] at he
          subst he
          exact Or.inr rfl
  · rw [if_neg hcond] at hok
    injection hok with hok
    subst hok
    exact ⟨⟨hinv.sizeEq, hinv.mgaNodup, hinv.magNodup, hinv.mgaKey,
      hinv.magKey, hinv.mgaToMag, hinv.magToMga⟩,
      fun e he => Or.inl he, fun e he => Or.inl he⟩

theorem relaxedMatchLoop_preserves_inv :
    ∀ (cs : List (DiffSpan × DiffSpan)) (st st' : MatchState),
      relaxedMatchLoop st cs = .ok st' → MatchInv st →
      MatchInv st' ∧
      (∀ e ∈ st'.mga, e ∈ st.mga ∨ e.1 ∈ cs.map (fun c => c.1.key)) ∧
      (∀ e ∈ st'.mag, e ∈ st.mag ∨ e.1 ∈ cs.map (fun c => c.2.key)) := by
  intro cs
  induction cs with
  | nil =>
      intro st st' hok hinv
      rw [relaxedMatchLoop] at hok
      injection hok with hok
      subst hok
      exact ⟨hinv, fun e he => Or.inl he, fun e he => Or.inl he⟩
  | cons c rest ih =>
      intro st st' hok hinv
      rw [relaxedMatchLoop] at hok
      rcases hst1 : relaxedMatchStep st c with m | st1 <;> rw [hst1] at hok
      · exact absurd hok (by simp)
      · obtain ⟨hinv1, hsub1, hsub2⟩ :=
          relaxedMatchStep_preserves_inv st c st1 hst1 hinv
        obtain ⟨hinv', hsub1', hsub2'⟩ := ih st1 st' hok hinv1
        refine ⟨hinv', ?_, ?_⟩
        · intro e he
          rcases hsub1' e he with he1 | he1
          · rcases hsub1 e he1 with he2 | he2
            · exact Or.inl he2
            · exact Or.inr (by simp [he2])
          · exact Or.inr (by simp; right; exact (by simpa using he1))
        · intro e he
          rcases hsub2' e he with he1 | he1
          · rcases hsub2 e he1 with he2 | he2
            · exact Or.inl he2
            · exact Or.inr (by simp [he2])
          · exact Or.inr (by simp; right; exact (by simpa using he1))

theorem nodup_keys_length_le (l : List (SpanKey × (DiffSpan × DiffSpan)))
    (glist : List SpanKey) (hn : (l.map Prod.fst).Nodup)
    (hsub : ∀ e ∈ l, e.1 ∈ glist) : l.length ≤ glist.dedup.length := by
  have h1 : (l.map Prod.fst).toFinset.card = (l.map Prod.fst).length :=
    List.toFinset_card_of_nodup hn
  have h2 : glist.toFinset.card = glist.dedup.length := List.card_toFinset glist
  have h3 : (l.map Prod.fst).toFinset ⊆ glist.toFinset := by
    intro x hx
    rw [List.mem_toFinset] at hx ⊢
    rcases List.mem_map.mp hx with ⟨e, he, hke⟩
    exact hke ▸ hsub e he
  have h4 := Finset.card_le_card h3
  rw [h1, h2] at h4
  simpa using h4

/-- C6: after the relaxed matching, the lenient missing count is the strict
missing count minus the number of matched pairs, and likewise for the extra
count; both differences are non-negative (so the `assert missing_spans >=
0` / `assert extra_spans >= 0` checks after the subtraction never fail),
provided the diff-layer metadata dominates the number of distinct gold and
system span keys appearing in the conflicts, which holds for a diff layer
whose `missing_spans`/`extra_spans` counters count its missing and extra
spans. -/
theorem aggregate_differences_lenient_counts (meta : DiffMeta)
    (conflicts : List (DiffSpan × DiffSpan)) (st : MatchState)
    (hok : relaxedMatch conflicts = .ok st)
    (hmiss : ((conflicts.map (fun c => c.1.key)).dedup).length ≤
      meta.missing_spans)
    (hextra : ((conflicts.map (fun c => c.2.key)).dedup).length ≤
      meta.extra_spans) :
    ∃ stats, aggregate_differences_extent meta conflicts = .ok stats ∧
      stats.missing_spans_lenient + st.mga.length = meta.missing_spans ∧
      stats.extra_spans_lenient + st.mga.length = meta.extra_spans ∧
      0 ≤ stats.missing_spans_lenient ∧ 0 ≤ stats.extra_spans_lenient := by
  obtain ⟨hinv, hsub1, hsub2⟩ :=
    relaxedMatchLoop_preserves_inv conflicts ⟨[], [], []⟩ st hok matchInv_init
  have hlen1 : st.mga.length ≤ meta.missing_spans := by
    have := nodup_keys_length_le st.mga (conflicts.map (fun c => c.1.key))
      hinv.mgaNodup (fun e he => by
        rcases hsub1 e he with h | h
        · simp at h
        · exact h)
    omega
  have hlen2 : st.mga.length ≤ meta.extra_spans := by
    have h2 := nodup_keys_length_le st.mag (conflicts.map (fun c => c.2.key))
      hinv.magNodup (fun e he => by
        rcases hsub2 e he with h | h
        · simp at h
        · exact h)
    have := hinv.sizeEq
    omega
  unfold aggregate_differences_extent
  rw [hok]
  simp only []
  rw [if_neg (by simp [hinv.sizeEq])]
  rw [if_neg (by push_cast; omega)]
  rw [if_neg (by push_cast; omega)]
  refine ⟨_, rfl, ?_, ?_, ?_, ?_⟩ <;> simp <;> push_cast <;> omega

/-- The single-conflict example used by the C6 witness: gold `[0,5)` DATE
1999 (missing) against system `[2,8)` DATE 1999 (extra). -/
def c6gold : DiffSpan :=
  ⟨0, 5, [⟨"missing", .str "DATE", .str "1999", .noneV, .noneV, .noneV,
    .noneV, .noneV, .noneV⟩]⟩

/-- The system-side span of the C6 witness example. -/
def c6auto : DiffSpan :=
  ⟨2, 8, [⟨"extra", .str "DATE", .str "1999", .noneV, .noneV, .noneV,
    .noneV, .noneV, .noneV⟩]⟩

/-- The conflict list of the C6 witness example. -/
def c6conflicts : List (DiffSpan × DiffSpan) := [(c6gold, c6auto)]

/-- The matching state reached on `c6conflicts` (score 10: both primary and
all six secondary attributes agree). -/
def c6state : MatchState :=
  ⟨[((0, 5), (c6gold, c6auto))], [((2, 8), (c6gold, c6auto))], [((0, 5), 10)]⟩

/-- Witness for C6: one conflict pair is matched and subtracted from 2
missing / 3 extra spans, and both lenient counts stay non-negative. -/
theorem aggregate_differences_lenient_counts_witness :
    relaxedMatch c6conflicts = .ok c6state ∧
    ((c6conflicts.map (fun c => c.1.key)).dedup).length ≤
      (DiffMeta.mk 4 1 2 3).missing_spans ∧
    ((c6conflicts.map (fun c => c.2.key)).dedup).length ≤
      (DiffMeta.mk 4 1 2 3).extra_spans ∧
    (∃ stats, aggregate_differences_extent ⟨4, 1, 2, 3⟩ c6conflicts =
        .ok stats ∧
      stats.missing_spans_lenient + c6state.mga.length =
        (DiffMeta.mk 4 1 2 3).missing_spans ∧
      stats.extra_spans_lenient + c6state.mga.length =
        (DiffMeta.mk 4 1 2 3).extra_spans ∧
      0 ≤ stats.missing_spans_lenient ∧ 0 ≤ stats.extra_spans_lenient) := by
  refine ⟨by rfl, by decide, by decide, ?_⟩
  exact aggregate_differences_lenient_counts ⟨4, 1, 2, 3⟩ c6conflicts c6state
    (by rfl) (by decide) (by decide)

/-- A missing gold span all eight of whose attribute values differ from the
system span `zsAuto` it overlaps. -/
def zsGold : DiffSpan :=
  ⟨0, 5, [⟨"missing", .str "DATE", .str "1999", .str "m1", .str "q1",
    .str "f1", .str "b1", .str "e1", .str "p1"⟩]⟩

/-- The overlapping extra system span of the zero-score example. -/
def zsAuto : DiffSpan :=
  ⟨2, 8, [⟨"extra", .str "TIME", .str "2000", .str "m2", .str "q2",
    .str "f2", .str "b2", .str "e2", .str "p2"⟩]⟩

/-- Witness for C9: on the single zero-score conflict `(zsGold, zsAuto)`
nothing is matched, and the lenient counts equal the strict ones. -/
theorem relaxed_match_positive_scores_witness :
    (∀ c ∈ [(zsGold, zsAuto)], c.1.annotations ≠ [] ∧ c.2.annotations ≠ []) ∧
    (∃ st stats, relaxedMatch [(zsGold, zsAuto)] = .ok st ∧ st.mga = [] ∧
      aggregate_differences_extent ⟨4, 1, 2, 3⟩ [(zsGold, zsAuto)] =
        .ok stats ∧
      stats.missing_spans_lenient =
        ((DiffMeta.mk 4 1 2 3).missing_spans : Int) ∧
      stats.extra_spans_lenient =
        ((DiffMeta.mk 4 1 2 3).extra_spans : Int)) := by
  refine ⟨by decide, ?_⟩
  exact relaxed_match_positive_scores.2.2 ⟨4, 1, 2, 3⟩ [(zsGold, zsAuto)]
    (by decide)
    (by
      intro c hc ga gt aa at_ hga haa
      simp only [List.mem_singleton] at hc
      subst hc
      simp only [zsGold, zsAuto] at hga haa
      injection hga with h1 h2
      injection haa with h3 h4
      subst h1
      subst h3
      decide)

theorem KList.get?_append_isSome {β : Type} (l1 l2 : List (SpanKey × β))
    (k : SpanKey) : (KList.get? (l1 ++ l2) k).isSome =
      ((KList.get? l1 k).isSome || (KList.get? l2 k).isSome) := by
  rcases h1 : KList.get? l1 k with _ | v
  · rw [KList.get?_append_none _ _ _ h1]
    simp
  · rw [KList.get?_append_left _ _ _ _ h1]
    simp

theorem KList.get?_single_ne {β : Type} (k0 k : SpanKey) (v : β)
    (h : k0 ≠ k) : KList.get? [(k0, v)] k = Option.none := by
  simp [KList.get?, h]

theorem KList.get?_single_self {β : Type} (k : SpanKey) (v : β) :
    KList.get? [(k, v)] k = some v := by
  simp [KList.get?]

/-- The `relaxedMatchLoop` splits over list concatenation. -/
theorem relaxedMatchLoop_append (xs ys : List (DiffSpan × DiffSpan)) :
    ∀ st, relaxedMatchLoop st (xs ++ ys) =
      match relaxedMatchLoop st xs with
      | .error m => .error m
      | .ok st' => relaxedMatchLoop st' ys := by
  induction xs with
  | nil => intro st; rfl
  | cons c rest ih =>
      intro st
      rw [List.cons_append, relaxedMatchLoop, relaxedMatchLoop]
      rcases hst : relaxedMatchStep st c with m | st1
      · rfl
      · exact ih st1

/-- Score of a conflict pair read off `annotations[0]` of both spans (`0`
when an annotation list is empty; the loop itself raises there). -/
def scoreOfPair (g a : DiffSpan) : Nat :=
  match g.annotations, a.annotations with
  | ga :: _, aa :: _ => matchScore ga aa
  | _, _ => 0

/-- Modelled from the spec: the greedy choice for one gold span.  Scans the
gold span's conflicting system spans in encounter order and replaces the
tentative choice whenever a still-available span scores strictly higher;
starting the running best at `0` admits only strictly positive scores (the
amended claim). -/
def pickBestAux (used : List SpanKey) (g : DiffSpan) :
    List DiffSpan → Option DiffSpan × Nat → Option DiffSpan × Nat
  | [], acc => acc
  | a :: rest, acc =>
      if acc.2 < scoreOfPair g a ∧ a.key ∉ used then
        pickBestAux used g rest (some a, scoreOfPair g a)
      else pickBestAux used g rest acc

/-- Modelled from the spec, as the claim literally words it: each gold span
is assigned the highest-scoring still-available system span regardless of
the score's value (a free span is taken even at score `0`). -/
def pickBestAuxLiteral (used : List SpanKey) (g : DiffSpan) :
    List DiffSpan → Option DiffSpan × Nat → Option DiffSpan × Nat
  | [], acc => acc
  | a :: rest, acc =>
      if (acc.1.isNone ∨ acc.2 < scoreOfPair g a) ∧ a.key ∉ used then
        pickBestAuxLiteral used g rest (some a, scoreOfPair g a)
      else pickBestAuxLiteral used g rest acc

/-- The spec-level greedy matching over conflict blocks grouped per gold
span (each block: one missing gold span with its overlapping extra system
spans in encounter order): each gold span takes the highest-scoring
still-available system span, ties to the earlier encountered, positive
scores only. -/
def specGreedy (used : List SpanKey) :
    List (DiffSpan × List DiffSpan) → List (SpanKey × (DiffSpan × DiffSpan))
  | [] => []
  | (g, autos) :: bs =>
      match pickBestAux used g autos (Option.none, 0) with
      | (some a, _) => (g.key, (g, a)) :: specGreedy (a.key :: used) bs
      | (Option.none, _) => specGreedy used bs

/-- The claim-literal greedy matching: like `specGreedy` but without the
positive-score requirement. -/
def claimGreedy (used : List SpanKey) :
    List (DiffSpan × List DiffSpan) → List (SpanKey × (DiffSpan × DiffSpan))
  | [] => []
  | (g, autos) :: bs =>
      match pickBestAuxLiteral used g autos (Option.none, 0) with
      | (some a, _) => (g.key, (g, a)) :: claimGreedy (a.key :: used) bs
      | (Option.none, _) => claimGreedy used bs

/-- The flat conflict list corresponding to grouped blocks, in encounter
order. -/
def conflictsOfBlocks (blocks : List (DiffSpan × List DiffSpan)) :
    List (DiffSpan × DiffSpan) :=
  (blocks.map (fun b => b.2.map (fun a => (b.1, a)))).join

theorem KList.get?_set_isSome_imp {β : Type} (l : List (SpanKey × β))
    (k0 k : SpanKey) (v : β)
    (h : (KList.get? (KList.set l k0 v) k).isSome) :
    (KList.get? l k).isSome ∨ k = k0 := by
  by_cases hk : k = k0
  · exact Or.inr hk
  · rw [KList.get?_set_other _ _ _ _ hk] at h
    exact Or.inl h

/-- The gold-map entry contributed by a tentative choice. -/
def goldEntry (g : DiffSpan) : Option DiffSpan →
    List (SpanKey × (DiffSpan × DiffSpan))
  | some a => [(g.key, (g, a))]
  | Option.none => []

/-- The system-map entry contributed by a tentative choice. -/
def autoEntry (g : DiffSpan) : Option DiffSpan →
    List (SpanKey × (DiffSpan × DiffSpan))
  | some a => [(a.key, (g, a))]
  | Option.none => []

/-- Running the matching loop over one gold span's conflict block from a
base state in which that gold span is untouched performs exactly the greedy
best-available scan `pickBestAux`: the final state holds the base maps plus
the entries of the picked system span, and only the gold span's score entry
may have been added. -/
theorem relaxedMatchLoop_block (g : DiffSpan) (ga0 : DiffAnn)
    (gt0 : List DiffAnn) (hg : g.annotations = ga0 :: gt0)
    (hgm : ga0.span_status = "missing") (used : List SpanKey)
    (mga0 mag0 : List (SpanKey × (DiffSpan × DiffSpan)))
    (hA1 : KList.get? mga0 g.key = Option.none)
    (hA3 : ∀ k, (KList.get? mag0 k).isSome ↔ k ∈ used) :
    ∀ (autos : List DiffSpan) (o : Option DiffSpan) (cur : Nat)
      (s : List (SpanKey × Nat)),
      (∀ a ∈ autos, ∃ aa at_, a.annotations = aa :: at_ ∧
        aa.span_status = "extra") →
      (autos.map DiffSpan.key).Nodup →
      (∀ t, o = some t → t.key ∉ autos.map DiffSpan.key ∧ t.key ∉ used) →
      ((KList.get? s g.key = some cur) ∨
        (KList.get? s g.key = Option.none ∧ cur = 0 ∧ o = Option.none)) →
      ∃ sFin,
        relaxedMatchLoop ⟨mga0 ++ goldEntry g o, mag0 ++ autoEntry g o, s⟩
            (autos.map (fun a => (g, a))) =
          .ok ⟨mga0 ++ goldEntry g (pickBestAux used g autos (o, cur)).1,
               mag0 ++ autoEntry g (pickBestAux used g autos (o, cur)).1,
               sFin⟩ ∧
        (∀ k, (KList.get? sFin k).isSome →
          (KList.get? s k).isSome ∨ k = g.key) := by
  intro autos
  induction autos with
  | nil =>
      intro o cur s _ _ _ _
      exact ⟨s, rfl, fun k hk => Or.inl hk⟩
  | cons a rest ih =>
      intro o cur s hstat hnd ho hs
      obtain ⟨aa, at_, haa, hax⟩ := hstat a (by simp)
      have hscore : scoreOfPair g a = matchScore ga0 aa := by
        unfold scoreOfPair
        rw [hg, haa]
      -- the defaultdict read
      obtain ⟨rdScores, hrdEq, hrdMem, hrdSelf⟩ :
          ∃ rs, scoreRead s g.key = (cur, rs) ∧
            (∀ k, (KList.get? rs k).isSome →
              (KList.get? s k).isSome ∨ k = g.key) ∧
            KList.get? rs g.key = some cur := by
        rcases hs with hs | ⟨hsn, hc0, hoN⟩
        · refine ⟨s, by unfold scoreRead; rw [hs], fun k hk => Or.inl hk, hs⟩
        · subst hc0
          refine ⟨s ++ [(g.key, 0)], by unfold scoreRead; rw [hsn], ?_, ?_⟩
          · intro k hk
            rw [KList.get?_append_isSome, Bool.or_eq_true] at hk
            rcases hk with hk | hk
            · exact Or.inl hk
            · right
              by_cases hkk : k = g.key
              · exact hkk
              · rw [KList.get?_single_ne _ _ _ (fun hc => hkk hc.symm)] at hk
                simp at hk
          · rw [KList.get?_append_none _ _ _ hsn, KList.get?_single_self]
      -- availability of the current system span in the running map
      have hmagA : ∀ hk : a.key ∉ used,
          KList.get? (mag0 ++ autoEntry g o) a.key = Option.none := by
        intro hk
        rcases ho2 : o with _ | t
        · show KList.get? (mag0 ++ []) a.key = Option.none
          rw [List.append_nil]
          rcases hmg : KList.get? mag0 a.key with _ | v
          · rfl
          · exact absurd ((hA3 a.key).mp (by rw [hmg]; rfl)) hk
        · have htne : t.key ≠ a.key := by
            intro hc
            exact ((ho t ho2).1) (hc ▸ (by simp))
          show KList.get? (mag0 ++ [(t.key, (g, t))]) a.key = Option.none
          rcases hmg : KList.get? mag0 a.key with _ | v
          · rw [KList.get?_append_none _ _ _ hmg]
            exact KList.get?_single_ne _ _ _ htne
          · exact absurd ((hA3 a.key).mp (by rw [hmg]; rfl)) hk
      have hmagB : ∀ hk : a.key ∈ used,
          (KList.get? (mag0 ++ autoEntry g o) a.key).isSome := by
        intro hk
        rw [KList.get?_append_isSome, Bool.or_eq_true]
        exact Or.inl ((hA3 a.key).mpr hk)
      rw [List.map_cons, relaxedMatchLoop]
      rw [pickBestAux]
      by_cases hcond : cur < scoreOfPair g a ∧ a.key ∉ used
      · -- the system span is taken (perhaps replacing the tentative one)
        have hstepEq : relaxedMatchStep
            ⟨mga0 ++ goldEntry g o, mag0 ++ autoEntry g o, s⟩ (g, a) =
            .ok ⟨mga0 ++ goldEntry g (some a), mag0 ++ autoEntry g (some a),
              KList.set rdScores g.key (scoreOfPair g a)⟩ := by
          unfold relaxedMatchStep
          rw [hg, haa]
          simp only []
          rw [hrdEq]
          rw [if_pos ⟨by rw [← hscore]; exact hcond.1, hmagA hcond.2⟩]
          rw [if_neg (by simp [hgm]), if_neg (by simp [hax])]
          rcases ho2 : o with _ | t
          · have hmgaN : KList.get? (mga0 ++ goldEntry g Option.none) g.key =
                Option.none := by
              show KList.get? (mga0 ++ []) g.key = Option.none
              rw [List.append_nil]
              exact hA1
            rw [hmgaN]
            simp only []
            have e1 : KList.set (mga0 ++ goldEntry g Option.none) g.key (g, a) =
                mga0 ++ goldEntry g (some a) := by
              show KList.set (mga0 ++ []) g.key (g, a) = _
              rw [List.append_nil, KList.set_of_get?_none _ _ _ hA1]
              rfl
            have hmagN : KList.get? mag0 a.key = Option.none := by
              rcases hmg : KList.get? mag0 a.key with _ | v
              · rfl
              · exact absurd ((hA3 a.key).mp (by rw [hmg]; rfl)) hcond.2
            have e2 : KList.set (mag0 ++ autoEntry g Option.none) a.key (g, a) =
                mag0 ++ autoEntry g (some a) := by
              show KList.set (mag0 ++ []) a.key (g, a) = _
              rw [List.append_nil, KList.set_of_get?_none _ _ _ hmagN]
              rfl
            rw [e1, e2, hscore]
          · obtain ⟨htr, htu⟩ := ho t ho2
            have hmagT : KList.get? mag0 t.key = Option.none := by
              rcases hmg : KList.get? mag0 t.key with _ | v
              · rfl
              · exact absurd ((hA3 t.key).mp (by rw [hmg]; rfl)) htu
            have hmgaS : KList.get? (mga0 ++ goldEntry g (some t)) g.key =
                some (g, t) := by
              show KList.get? (mga0 ++ [(g.key, (g, t))]) g.key = _
              rw [KList.get?_append_none _ _ _ hA1, KList.get?_single_self]
            rw [hmgaS]
            simp only []
            have hmagS : KList.get? (mag0 ++ autoEntry g (some t)) t.key =
                some (g, t) := by
              show KList.get? (mag0 ++ [(t.key, (g, t))]) t.key = _
              rw [KList.get?_append_none _ _ _ hmagT, KList.get?_single_self]
            rw [hmagS]
            simp only []
            have e1 : KList.set (mga0 ++ goldEntry g (some t)) g.key (g, a) =
                mga0 ++ goldEntry g (some a) := by
              show KList.set (mga0 ++ [(g.key, (g, t))]) g.key (g, a) = _
              rw [KList.set_append_single _ _ _ _ hA1]
              rfl
            have e2 : KList.set (KList.eraseKey
                (mag0 ++ autoEntry g (some t)) t.key) a.key (g, a) =
                mag0 ++ autoEntry g (some a) := by
              show KList.set (KList.eraseKey
                (mag0 ++ [(t.key, (g, t))]) t.key) a.key (g, a) = _
              rw [KList.eraseKey_append_single _ _ _ hmagT]
              have hmagN : KList.get? mag0 a.key = Option.none := by
                rcases hmg : KList.get? mag0 a.key with _ | v
                · rfl
                · exact absurd ((hA3 a.key).mp (by rw [hmg]; rfl)) hcond.2
              rw [KList.set_of_get?_none _ _ _ hmagN]
              rfl
            rw [e1, e2, hscore]
        rw [hstepEq]
        rw [if_pos hcond]
        have hnd' : (rest.map DiffSpan.key).Nodup := by
          simpa using hnd.of_cons
        have hanotr : a.key ∉ rest.map DiffSpan.key := by
          have h2 : (a.key :: rest.map DiffSpan.key).Nodup := by
            rw [← List.map_cons]
            exact hnd
          exact (List.nodup_cons.mp h2).1
        obtain ⟨sFin, hloopEq, hsmem⟩ := ih (some a) (scoreOfPair g a)
          (KList.set rdScores g.key (scoreOfPair g a))
          (fun a' ha' => hstat a' (by simp [ha']))
          hnd'
          (by
            intro t ht
            injection ht with ht
            subst ht
            exact ⟨hanotr, hcond.2⟩)
          (Or.inl (KList.get?_set_self _ _ _))
        refine ⟨sFin, hloopEq, ?_⟩
        intro k hk
        rcases hsmem k hk with hk1 | hk1
        · rcases KList.get?_set_isSome_imp _ _ _ _ hk1 with hk2 | hk2
          · exact hrdMem k hk2
          · exact Or.inr hk2
        · exact Or.inr hk1
      · -- the system span is skipped
        have hstepEq : relaxedMatchStep
            ⟨mga0 ++ goldEntry g o, mag0 ++ autoEntry g o, s⟩ (g, a) =
            .ok ⟨mga0 ++ goldEntry g o, mag0 ++ autoEntry g o, rdScores⟩ := by
          unfold relaxedMatchStep
          rw [hg, haa]
          simp only []
          rw [hrdEq]
          rw [if_neg (by
            intro hcc
            apply hcond
            constructor
            · rw [hscore]; exact hcc.1
            · intro hku
              have := hmagB hku
              rw [hcc.2] at this
              simp at this)]
        rw [hstepEq]
        rw [if_neg hcond]
        have hnd' : (rest.map DiffSpan.key).Nodup := by
          simpa using hnd.of_cons
        have hs' : (KList.get? rdScores g.key = some cur) ∨
            (KList.get? rdScores g.key = Option.none ∧ cur = 0 ∧
              o = Option.none) :=
          Or.inl hrdSelf
        obtain ⟨sFin, hloopEq, hsmem⟩ := ih o cur rdScores
          (fun a' ha' => hstat a' (by simp [ha']))
          hnd'
          (by
            intro t ht
            obtain ⟨ht1, ht2⟩ := ho t ht
            exact ⟨fun hc => ht1 (by simp [hc]), ht2⟩)
          hs'
        refine ⟨sFin, hloopEq, ?_⟩
        intro k hk
        rcases hsmem k hk with hk1 | hk1
        · exact hrdMem k hk1
        · exact Or.inr hk1

theorem KList.get?_single_isSome {β : Type} (k0 k : SpanKey) (v : β) :
    (KList.get? [(k0, v)] k).isSome ↔ k = k0 := by
  by_cases hk : k = k0
  · subst hk
    rw [KList.get?_single_self]
    simp
  · rw [KList.get?_single_ne _ _ _ (fun hc => hk hc.symm)]
    simp [hk]

theorem conflictsOfBlocks_cons (g : DiffSpan) (autos : List DiffSpan)
    (bs : List (DiffSpan × List DiffSpan)) :
    conflictsOfBlocks ((g, autos) :: bs) =
      autos.map (fun a => (g, a)) ++ conflictsOfBlocks bs := by
  unfold conflictsOfBlocks
  rw [List.map_cons]
  rfl

/-- Running the matching loop over a grouped conflict list, block by block,
computes exactly the spec-level greedy assignment `specGreedy`: the gold map
gains one entry per gold span that found a strictly-positive-scoring free
system span, and the score map only gains entries at processed gold keys. -/
theorem relaxedMatchLoop_blocks (blocks : List (DiffSpan × List DiffSpan)) :
    ∀ (used : List SpanKey)
      (mga0 mag0 : List (SpanKey × (DiffSpan × DiffSpan)))
      (s : List (SpanKey × Nat)),
      (∀ b ∈ blocks, ∃ ga gt, b.1.annotations = ga :: gt ∧
        ga.span_status = "missing") →
      (∀ b ∈ blocks, ∀ a ∈ b.2, ∃ aa at_, a.annotations = aa :: at_ ∧
        aa.span_status = "extra") →
      (blocks.map (fun b => b.1.key)).Nodup →
      (∀ b ∈ blocks, (b.2.map DiffSpan.key).Nodup) →
      (∀ b ∈ blocks, KList.get? mga0 b.1.key = Option.none) →
      (∀ b ∈ blocks, KList.get? s b.1.key = Option.none) →
      (∀ k, (KList.get? mag0 k).isSome ↔ k ∈ used) →
      ∃ (usedF : List SpanKey)
        (magF : List (SpanKey × (DiffSpan × DiffSpan)))
        (sF : List (SpanKey × Nat)),
        relaxedMatchLoop ⟨mga0, mag0, s⟩ (conflictsOfBlocks blocks) =
          .ok ⟨mga0 ++ specGreedy used blocks, magF, sF⟩ ∧
        (∀ k, (KList.get? magF k).isSome ↔ k ∈ usedF) ∧
        (∀ k, (KList.get? sF k).isSome →
          (KList.get? s k).isSome ∨ k ∈ blocks.map (fun b => b.1.key)) := by
  induction blocks with
  | nil =>
      intro used mga0 mag0 s _ _ _ _ _ _ hA3
      refine ⟨used, mag0, s, ?_, hA3, fun k hk => Or.inl hk⟩
      rw [specGreedy, List.append_nil]
      rfl
  | cons b bs ih =>
      intro used mga0 mag0 s hmiss hextra hndG hndA hmga hsG hA3
      obtain ⟨g, autos⟩ := b
      obtain ⟨ga, gt, hga, hgam⟩ := hmiss (g, autos) (by simp)
      rw [conflictsOfBlocks_cons]
      rw [relaxedMatchLoop_append]
      obtain ⟨s1, hblk, hsmem1⟩ := relaxedMatchLoop_block g ga gt hga hgam
        used mga0 mag0 (hmga (g, autos) (by simp)) hA3
        autos Option.none 0 s
        (fun a ha => hextra (g, autos) (by simp) a ha)
        (hndA (g, autos) (by simp))
        (by intro t ht; exact absurd ht (by simp))
        (Or.inr ⟨hsG (g, autos) (by simp), rfl, rfl⟩)
      have hbase : (⟨mga0 ++ goldEntry g Option.none,
          mag0 ++ autoEntry g Option.none, s⟩ : MatchState) =
          ⟨mga0, mag0, s⟩ := by
        show (⟨mga0 ++ [], mag0 ++ [], s⟩ : MatchState) = _
        rw [List.append_nil, List.append_nil]
      rw [hbase] at hblk
      rw [hblk]
      simp only []
      have hndG' : (bs.map (fun b => b.1.key)).Nodup := by
        rw [List.map_cons] at hndG
        exact (List.nodup_cons.mp hndG).2
      have hgnotbs : g.key ∉ bs.map (fun b => b.1.key) := by
        rw [List.map_cons] at hndG
        exact (List.nodup_cons.mp hndG).1
      have hsG1 : ∀ b ∈ bs, KList.get? s1 b.1.key = Option.none := by
        intro b hb
        rcases hg1 : KList.get? s1 b.1.key with _ | v
        · rfl
        · exfalso
          rcases hsmem1 b.1.key (by rw [hg1]; rfl) with hk | hk
          · rw [hsG b (by simp [hb])] at hk
            simp at hk
          · exact hgnotbs (hk ▸ List.mem_map_of_mem _ hb)
      rcases hpick : (pickBestAux used g autos (Option.none, 0)).1 with _ | a
      · -- no positive-scoring free span: the gold span stays unmatched
        have hbase2 : (⟨mga0 ++ goldEntry g Option.none,
            mag0 ++ autoEntry g Option.none, s1⟩ : MatchState) =
            ⟨mga0, mag0, s1⟩ := by
          show (⟨mga0 ++ [], mag0 ++ [], s1⟩ : MatchState) = _
          rw [List.append_nil, List.append_nil]
        rw [hbase2]
        obtain ⟨usedF, magF, sF, heq2, hA3F, hsmem2⟩ := ih used mga0 mag0 s1
          (fun b hb => hmiss b (by simp [hb]))
          (fun b hb => hextra b (by simp [hb]))
          hndG'
          (fun b hb => hndA b (by simp [hb]))
          (fun b hb => hmga b (by simp [hb]))
          hsG1
          hA3
        refine ⟨usedF, magF, sF, ?_, hA3F, ?_⟩
        · rw [heq2]
          have hsg : specGreedy used ((g, autos) :: bs) =
              specGreedy used bs := by
            rcases hp2 : pickBestAux used g autos (Option.none, 0) with ⟨op, sc⟩
            rw [hp2] at hpick
            simp only [] at hpick
            subst hpick
            rw [specGreedy, hp2]
          rw [hsg]
        · intro k hk
          rcases hsmem2 k hk with hk1 | hk1
          · rcases hsmem1 k hk1 with hk2 | hk2
            · exact Or.inl hk2
            · exact Or.inr (by rw [List.map_cons]; simp [hk2])
          · exact Or.inr (by rw [List.map_cons]; simp [hk1])
      · -- the gold span takes the picked system span
        simp only [goldEntry, autoEntry]
        obtain ⟨usedF, magF, sF, heq2, hA3F, hsmem2⟩ :=
          ih (a.key :: used) (mga0 ++ [(g.key, (g, a))])
            (mag0 ++ [(a.key, (g, a))]) s1
          (fun b hb => hmiss b (by simp [hb]))
          (fun b hb => hextra b (by simp [hb]))
          hndG'
          (fun b hb => hndA b (by simp [hb]))
          (by
            intro b hb
            have hne : b.1.key ≠ g.key := by
              intro hc
              exact hgnotbs (hc ▸ List.mem_map_of_mem _ hb)
            rw [KList.get?_append_none _ _ _ (hmga b (by simp [hb]))]
            exact KList.get?_single_ne _ _ _ (fun hc => hne hc.symm))
          hsG1
          (by
            intro k
            rw [KList.get?_append_isSome, Bool.or_eq_true]
            rw [KList.get?_single_isSome]
            constructor
            · intro hk
              rcases hk with hk | hk
              · exact List.mem_cons_of_mem _ ((hA3 k).mp hk)
              · exact hk ▸ List.mem_cons_self _ _
            · intro hk
              rcases List.mem_cons.mp hk with hk | hk
              · exact Or.inr hk
              · exact Or.inl ((hA3 k).mpr hk))
        refine ⟨usedF, magF, sF, ?_, hA3F, ?_⟩
        · rw [heq2]
          have hsg : specGreedy used ((g, autos) :: bs) =
              (g.key, (g, a)) :: specGreedy (a.key :: used) bs := by
            rcases hp2 : pickBestAux used g autos (Option.none, 0) with ⟨op, sc⟩
            rw [hp2] at hpick
            simp only [] at hpick
            subst hpick
            rw [specGreedy, hp2]
          rw [hsg]
          simp
        · intro k hk
          rcases hsmem2 k hk with hk1 | hk1
          · rcases hsmem1 k hk1 with hk2 | hk2
            · exact Or.inl hk2
            · exact Or.inr (by rw [List.map_cons]; simp [hk2])
          · exact Or.inr (by rw [List.map_cons]; simp [hk1])

theorem pickBestAux_some_not_used (used : List SpanKey) (g : DiffSpan) :
    ∀ (autos : List DiffSpan) (acc : Option DiffSpan × Nat) (a : DiffSpan),
      (pickBestAux used g autos acc).1 = some a →
      acc.1 = some a ∨ a.key ∉ used := by
  intro autos
  induction autos with
  | nil =>
      intro acc a h
      exact Or.inl h
  | cons x rest ih =>
      intro acc a h
      rw [pickBestAux] at h
      by_cases hc : acc.2 < scoreOfPair g x ∧ x.key ∉ used
      · rw [if_pos hc] at h
        rcases ih _ a h with h1 | h1
        · have h2 : some x = some a := h1
          injection h2 with h2
          exact Or.inr (h2 ▸ hc.2)
        · exact Or.inr h1
      · rw [if_neg hc] at h
        exact ih _ a h

theorem specGreedy_fst_sublist :
    ∀ (bs : List (DiffSpan × List DiffSpan)) (used : List SpanKey),
      List.Sublist ((specGreedy used bs).map Prod.fst)
        (bs.map (fun b => b.1.key)) := by
  intro bs
  induction bs with
  | nil =>
      intro used
      simp [specGreedy]
  | cons b rest ih =>
      intro used
      obtain ⟨g, autos⟩ := b
      rcases hp : pickBestAux used g autos (Option.none, 0) with ⟨op, sc⟩
      rw [specGreedy, hp]
      rcases op with _ | a
      · show List.Sublist ((specGreedy used rest).map Prod.fst) _
        rw [List.map_cons]
        exact List.Sublist.cons _ (ih used)
      · show List.Sublist
          (((g.key, (g, a)) :: specGreedy (a.key :: used) rest).map Prod.fst) _
        rw [List.map_cons, List.map_cons]
        exact List.Sublist.cons₂ _ (ih (a.key :: used))

theorem specGreedy_autoKeys :
    ∀ (bs : List (DiffSpan × List DiffSpan)) (used : List SpanKey),
      (∀ e ∈ specGreedy used bs, e.2.2.key ∉ used) ∧
      ((specGreedy used bs).map (fun e => e.2.2.key)).Nodup := by
  intro bs
  induction bs with
  | nil =>
      intro used
      constructor
      · intro e he
        simp [specGreedy] at he
      · simp [specGreedy]
  | cons b rest ih =>
      intro used
      obtain ⟨g, autos⟩ := b
      rcases hp : pickBestAux used g autos (Option.none, 0) with ⟨op, sc⟩
      rcases op with _ | a
      · have heq : specGreedy used ((g, autos) :: rest) =
            specGreedy used rest := by
          rw [specGreedy, hp]
        rw [heq]
        exact ih used
      · have heq : specGreedy used ((g, autos) :: rest) =
            (g.key, (g, a)) :: specGreedy (a.key :: used) rest := by
          rw [specGreedy, hp]
        have hnu : a.key ∉ used := by
          rcases pickBestAux_some_not_used used g autos (Option.none, 0) a
            (by rw [hp]) with h | h
          · exact absurd h (by simp)
          · exact h
        rw [heq]
        constructor
        · intro e he
          rcases List.mem_cons.mp he with he | he
          · subst he
            exact hnu
          · intro hc
            exact ((ih (a.key :: used)).1 e he) (List.mem_cons_of_mem _ hc)
        · rw [List.map_cons]
          refine List.nodup_cons.mpr ⟨?_, (ih (a.key :: used)).2⟩
          intro hc
          rcases List.mem_map.mp hc with ⟨e, he, hek⟩
          exact ((ih (a.key :: used)).1 e he)
            (by rw [hek]; exact List.mem_cons_self _ _)

/-- **C1** (amended): over conflict pairs grouped per gold span — each block
one missing gold span with its overlapping extra system spans in encounter
order, gold spans pairwise distinct by span key, each block's system spans
pairwise distinct by span key (the shape `DiffTagger`/`iterate_diff_conflicts`
delivers, spec-modelled) — the relaxed matching loop of
`aggregate_differences` computes exactly the spec-level greedy assignment
`specGreedy`: each gold span takes the highest-scoring still-available system
span, ties broken by encounter order, **provided that best score is strictly
positive** — the `defaultdict(int)` start value together with the strict `<`
comparison means a zero-score pair is never matched, where the claim's
literal reading would assign any still-available system span.  The resulting
assignment is one-to-one (gold keys and system keys each pairwise distinct),
and each pair's score is 2 points per equal primary attribute (`type`,
`value`) plus 1 point per equal secondary attribute, as claimed. -/
theorem relaxed_matching_greedy
    (blocks : List (DiffSpan × List DiffSpan))
    (hmiss : ∀ b ∈ blocks, ∃ ga gt, b.1.annotations = ga :: gt ∧
      ga.span_status = "missing")
    (hextra : ∀ b ∈ blocks, ∀ a ∈ b.2, ∃ aa at_, a.annotations = aa :: at_ ∧
      aa.span_status = "extra")
    (hndG : (blocks.map (fun b => b.1.key)).Nodup)
    (hndA : ∀ b ∈ blocks, (b.2.map DiffSpan.key).Nodup) :
    ∃ (magF : List (SpanKey × (DiffSpan × DiffSpan)))
      (sF : List (SpanKey × Nat)),
      relaxedMatch (conflictsOfBlocks blocks) =
        .ok ⟨specGreedy [] blocks, magF, sF⟩ ∧
      ((specGreedy [] blocks).map Prod.fst).Nodup ∧
      ((specGreedy [] blocks).map (fun e => e.2.2.key)).Nodup ∧
      (∀ ga aa, matchScore ga aa = claimScore ga aa) := by
  obtain ⟨usedF, magF, sF, heq, _, _⟩ := relaxedMatchLoop_blocks blocks [] [] []
    [] hmiss hextra hndG hndA (fun b _ => rfl) (fun b _ => rfl)
    (by intro k; simp [KList.get?])
  refine ⟨magF, sF, heq, ?_, (specGreedy_autoKeys blocks []).2,
    matchScore_eq_claimScore⟩
  exact List.Nodup.sublist (specGreedy_fst_sublist blocks []) hndG

/-- A missing gold span for the C1 examples. -/
def c1gold : DiffSpan :=
  ⟨0, 5, [⟨"missing", .str "DATE", .str "1999", .noneV, .noneV,
    .noneV, .noneV, .noneV, .noneV⟩]⟩

/-- An overlapping extra system span agreeing with `c1gold` on `type`
(score 2). -/
def c1auto : DiffSpan :=
  ⟨2, 8, [⟨"extra", .str "DATE", .str "2001", .noneV, .noneV,
    .noneV, .noneV, .noneV, .noneV⟩]⟩

/-- An overlapping extra system span disagreeing with `c1gold` on every
scored attribute (score 0). -/
def c1autoZero : DiffSpan :=
  ⟨2, 8, [⟨"extra", .str "TIME", .str "2001", .str "m", .str "q",
    .str "f", .str "b", .str "e", .str "p"⟩]⟩

/-- Counterexample for C1: on a single conflict whose pair scores 0, the
code's loop matches nothing (its score map starts at 0 and only strict
improvements are stored), while the claim's literal greedy reading — assign
each gold span the highest-scoring still-available system span, with no
positivity requirement — assigns the pair. -/
theorem relaxed_matching_greedy_counterexample :
    relaxedMatch (conflictsOfBlocks [(c1gold, [c1autoZero])]) =
      .ok ⟨[], [], [(c1gold.key, 0)]⟩ ∧
    specGreedy [] [(c1gold, [c1autoZero])] = [] ∧
    claimGreedy [] [(c1gold, [c1autoZero])] =
      [(c1gold.key, (c1gold, c1autoZero))] := by
  refine ⟨by rfl, by rfl, by rfl⟩

/-- Witness for C1: the amended theorem applied to the single block
`(c1gold, [c1auto])`, whose pair scores 2; the greedy assignment matches
them one-to-one. -/
theorem relaxed_matching_greedy_witness :
    ∃ (magF : List (SpanKey × (DiffSpan × DiffSpan)))
      (sF : List (SpanKey × Nat)),
      relaxedMatch (conflictsOfBlocks [(c1gold, [c1auto])]) =
        .ok ⟨specGreedy [] [(c1gold, [c1auto])], magF, sF⟩ ∧
      ((specGreedy [] [(c1gold, [c1auto])]).map Prod.fst).Nodup ∧
      ((specGreedy [] [(c1gold, [c1auto])]).map
        (fun e => e.2.2.key)).Nodup ∧
      (∀ ga aa, matchScore ga aa = claimScore ga aa) :=
  relaxed_matching_greedy [(c1gold, [c1auto])]
    (by
      intro b hb
      rcases List.mem_singleton.mp hb with rfl
      exact ⟨_, _, rfl, rfl⟩)
    (by
      intro b hb a ha
      rcases List.mem_singleton.mp hb with rfl
      rcases List.mem_singleton.mp ha with rfl
      exact ⟨_, _, rfl, rfl⟩)
    (by decide)
    (by decide)

/-! ## C4: `create_new_text_obj` (tml_conv_utils.py) — which offset-bearing
raw timexes reach the output layer.  Text is a list of characters; raw timex
records are `PyDict`s; exceptions and failed `assert`s become `.error`. -/

/-- Python `\s` (ASCII): the whitespace characters removed by
`re.sub('\s+', '', s)`. -/
def pyIsSpace (c : Char) : Bool :=
  c = ' ' || c = '\t' || c = '\n' || c = '\r' || c = '\x0b' || c = '\x0c'

/-- `re.sub('\s+', '', s)`: delete every whitespace character. -/
def removeWs (s : List Char) : List Char :=
  s.filter (fun c => !(pyIsSpace c))

/-- Python slicing `text[s:e]` for non-negative bounds. -/
def pySlice (text : List Char) (s e : Nat) : List Char :=
  (text.take e).drop s

/-- `s.lower()` on the character list of a string. -/
def pyLower (s : String) : List Char :=
  s.toList.map Char.toLower

/-- Scan of `str.find` from position `i` with enough fuel to reach the end
of the text. -/
def strFindAux (text pat : List Char) : Nat → Nat → Option Nat
  | _, 0 => Option.none
  | i, fuel+1 =>
      if i + pat.length ≤ text.length then
        (if (text.drop i).take pat.length = pat then some i
         else strFindAux text pat (i+1) fuel)
      else Option.none

/-- Python `text.find(pat, start)`: least index `≥ start` where `pat`
occurs, `none` for `-1`. -/
def strFind (text pat : List Char) (start : Nat) : Option Nat :=
  strFindAux text pat start (text.length + 1 - start)

/-- `locations_overlap` (lines 176-182). -/
def locations_overlap (a b x y : Nat) : Bool :=
  decide ((a ≤ x ∧ y ≤ b) ∨ (x ≤ a ∧ b ≤ y) ∨ (a ≤ x ∧ x ≤ b) ∨
    (x ≤ b ∧ b ≤ y))

/-- `if src in d: d[dst] = d[src]; del d[src]` — the attribute renaming step
of `convert_timex_attributes`. -/
def moveKey (d : PyDict) (src dst : String) : PyDict :=
  match d.get? src with
  | some v => (d.set dst v).del src
  | Option.none => d

/-- The `temporalFunction` step of `convert_timex_attributes` (lines 78-84):
rename, then replace the value by a boolean when its lower-cased string is
`'true'`/`'false'`; calling `.lower()` on a non-string raises. -/
def convertTemporalFunction (d : PyDict) : Except String PyDict :=
  match d.get? "temporalFunction" with
  | Option.none => .ok d
  | some v =>
      let d1 := (d.set "temporal_function" v).del "temporalFunction"
      match v with
      | .str s =>
          if pyLower s = "true".toList then
            .ok (d1.set "temporal_function" (.bool true))
          else if pyLower s = "false".toList then
            .ok (d1.set "temporal_function" (.bool false))
          else .ok d1
      | _ => .error "AttributeError: lower"

/-- `convert_timex_attributes` (lines 73-101): rename XML attribute names to
Python ones and optionally drop `_start`/`_end`/`text`. -/
def convert_timex_attributes (timex : PyDict) (remove_start_end : Bool) :
    Except String PyDict :=
  match convertTemporalFunction timex with
  | .error e => .error e
  | .ok t1 =>
      let t2 := moveKey t1 "anchorTimeID" "anchor_time_id"
      let t3 := moveKey t2 "beginPoint" "begin_point"
      let t4 := moveKey t3 "endPoint" "end_point"
      .ok (if remove_start_end then ((t4.del "_start").del "_end").del "text"
        else t4)

/-- The attribute order of `convert_timex_to_ordered_dict` (lines 114-115). -/
def orderedAttribs : List String :=
  ["tid", "type", "value", "temporal_function", "mod", "anchor_time_id",
   "quant", "freq", "begin_point", "end_point", "comment"]

/-- `convert_timex_to_ordered_dict` (lines 104-118): convert attribute names
on a copy, then keep the attributes of `orderedAttribs` in that order. -/
def convert_timex_to_ordered_dict (timex : PyDict) : Except String PyDict :=
  match convert_timex_attributes timex true with
  | .error e => .error e
  | .ok c =>
      .ok (orderedAttribs.filterMap (fun k => (c.get? k).map (fun v => (k, v))))

/-- The scanning loop of `get_parent_of_interval` (lines 126-132). -/
def getParentLoop (cur : PyDict) : List PyDict →
    Except String (Option (PyDict × String))
  | [] => .ok Option.none
  | o :: rest =>
      if o.hasKey "tid" then
        if o.hasKey "beginPoint" ∧ o.get? "beginPoint" = cur.get? "tid" then
          .ok (some (o, "begin_point"))
        else if o.hasKey "endPoint" ∧ o.get? "endPoint" = cur.get? "tid" then
          .ok (some (o, "end_point"))
        else getParentLoop cur rest
      else .error "assert: tid"

/-- `get_parent_of_interval` (lines 121-132): first other timex whose
`beginPoint`/`endPoint` value equals the current timex's `tid`. -/
def get_parent_of_interval (cur : PyDict) (others : List PyDict) :
    Except String (Option (PyDict × String)) :=
  if cur.hasKey "tid" then getParentLoop cur others
  else .error "assert: tid"

/-- The scanning loop of `get_child_timepoints` (lines 143-150): later
matches overwrite earlier ones; records with `tid == 't0'` are skipped. -/
def getChildLoop (cur : PyDict) : List PyDict →
    Option PyDict × Option PyDict →
    Except String (Option PyDict × Option PyDict)
  | [], acc => .ok acc
  | o :: rest, acc =>
      if o.hasKey "tid" then
        if o.get? "tid" = some (.str "t0") then getChildLoop cur rest acc
        else
          getChildLoop cur rest
            ((if cur.hasKey "beginPoint" ∧ cur.get? "beginPoint" = o.get? "tid"
              then some o else acc.1),
             (if cur.hasKey "endPoint" ∧ cur.get? "endPoint" = o.get? "tid"
              then some o else acc.2))
      else .error "assert: tid"

/-- The `only_implicit` filter (lines 151-156): a truthy point that carries
`_start` or `text` is discarded. -/
def implicitFilter (pt : Option PyDict) : Option PyDict :=
  match pt with
  | some b =>
      if b ≠ [] ∧ (b.hasKey "_start" ∨ b.hasKey "text") then Option.none
      else some b
  | Option.none => Option.none

/-- `get_child_timepoints` (lines 135-157). -/
def get_child_timepoints (cur : PyDict) (others : List PyDict)
    (only_implicit : Bool) :
    Except String (Option PyDict × Option PyDict) :=
  if cur.hasKey "tid" then
    match (if cur.hasKey "beginPoint" ∨ cur.hasKey "endPoint" then
             getChildLoop cur others (Option.none, Option.none)
           else .ok (Option.none, Option.none)) with
    | .error e => .error e
    | .ok (bp, ep) =>
        if only_implicit then .ok (implicitFilter bp, implicitFilter ep)
        else .ok (bp, ep)
  else .error "assert: tid"

/-- `is_removable_interval_timex` (lines 160-173): the timex's `type` is
`'DURATION'` (a missing `type` key raises) and both child timepoints are
truthy dictionaries carrying `_start`. -/
def is_removable_interval_timex (timex : PyDict) (others : List PyDict) :
    Except String Bool :=
  match timex.get? "type" with
  | Option.none => .error "KeyError: type"
  | some tv =>
      if tv = .str "DURATION" then
        match get_child_timepoints timex others false with
        | .error e => .error e
        | .ok (bp, ep) =>
            match bp, ep with
            | some b, some e2 =>
                .ok (decide (b ≠ []) && b.hasKey "_start" &&
                  decide (e2 ≠ []) && e2.hasKey "_start")
            | _, _ => .ok false
      else .ok false

/-- The candidate-collection loop of branch D (lines 309-319 and 323-332):
repeatedly `find` the content, keep de-duplicated hits overlapping the
declared location, resume after each hit; fuel covers any non-empty
pattern (Python loops forever on an empty one). -/
def candidateLoop (text pat : List Char) (ts te : Nat) :
    Nat → Nat → List (Nat × Nat) → Except String (List (Nat × Nat))
  | 0, _, _ => .error "nontermination"
  | fuel+1, i, acc =>
      match strFind text pat i with
      | Option.none => .ok acc
      | some f =>
          candidateLoop text pat ts te fuel (f + pat.length)
            (if locations_overlap ts te f (f + pat.length) then
               (if (f, f + pat.length) ∈ acc then acc
                else acc ++ [(f, f + pat.length)])
             else acc)

/-- The timexes layer's attribute tuple (lines 227-229). -/
def timexesLayerAttributes : List String :=
  ["tid", "type", "value", "temporal_function", "anchor_time_id", "mod",
   "quant", "freq", "begin_point", "end_point", "part_of_interval", "comment"]

/-- `annotations = convert_timex_attributes(copy.deepcopy(timex))` followed
by the unexpected-key check against the layer attributes (e.g. lines
261-264). -/
def makeAnnotations (t : PyDict) : Except String PyDict :=
  match convert_timex_attributes t true with
  | .error e => .error e
  | .ok ann =>
      if ann.all (fun kv => decide (kv.1 ∈ timexesLayerAttributes)) then
        .ok ann
      else .error "unexpected key"

/-- Lines 234-242: if the current timex is a point of an interval timex, the
interval must be a `DURATION` (else the import raises) and its ordered dict
is stored under `part_of_interval` on the current record. -/
def applyParent (timex : PyDict) (tms : List PyDict) :
    Except String PyDict :=
  match get_parent_of_interval timex tms with
  | .error e => .error e
  | .ok (some (itv, _)) =>
      if itv.get? "type" = some (.str "DURATION") then
        match convert_timex_to_ordered_dict itv with
        | .error e => .error e
        | .ok od => .ok (timex.set "part_of_interval" (.odict od))
      else .error "unexpected interval_timex"
  | .ok Option.none => .ok timex

/-- Lines 250-255: attach a truthy implicit time point as an ordered dict
under the given key. -/
def attachPoint (timex : PyDict) (key : String) (pt : Option PyDict) :
    Except String PyDict :=
  match pt with
  | some p =>
      if p ≠ [] then
        match convert_timex_to_ordered_dict p with
        | .error e => .error e
        | .ok od => .ok (timex.set key (.odict od))
      else .ok timex
  | Option.none => .ok timex

/-- Lines 256-350: determine the exact text location of the timex (branches
A-D for records with a pre-specified `text`) and build its annotations; a
record whose location cannot be pinned down raises.  Offsets must be
integers (the layer rejects anything else). -/
def locateAndAnnotate (text : List Char) (timex2 : PyDict) :
    Except String ((Nat × Nat) × PyDict) :=
  match timex2.get? "_start", timex2.get? "_end" with
  | some (.nat s), some (.nat e) =>
      if !(timex2.hasKey "text") then
        match makeAnnotations timex2 with
        | .error e2 => .error e2
        | .ok ann => .ok ((s, e), ann)
      else
        match timex2.get? "text" with
        | some (.str tcS) =>
            let tc := tcS.toList
            let span := pySlice text s e
            if removeWs tc = span then
              match makeAnnotations timex2 with
              | .error e2 => .error e2
              | .ok ann => .ok ((s, e), ann)
            else if removeWs tc = removeWs span then
              match makeAnnotations timex2 with
              | .error e2 => .error e2
              | .ok ann => .ok ((s, e), ann)
            else if (strFind span tc 0).isSome then
              match strFind text tc s with
              | some f =>
                  if f + tc.length ≤ e then
                    if pySlice text f (f + tc.length) = tc then
                      match makeAnnotations timex2 with
                      | .error e2 => .error e2
                      | .ok ann => .ok ((f, f + tc.length), ann)
                    else .error "assert: slice"
                  else .error "unable to detect location"
              | Option.none => .error "unable to detect location"
            else
              match candidateLoop text tc s e (text.length + 2) 0 [] with
              | .error e2 => .error e2
              | .ok cands =>
                  match (if cands = [] then
                           candidateLoop text (removeWs tc) s e
                             (text.length + 2) 0 []
                         else .ok cands) with
                  | .error e2 => .error e2
                  | .ok cands2 =>
                      match cands2 with
                      | [c] =>
                          if pySlice text c.1 c.2 =
                              (if cands = [] then removeWs tc else tc) then
                            match makeAnnotations timex2 with
                            | .error e2 => .error e2
                            | .ok ann => .ok ((c.1, c.2), ann)
                          else .error "assert: slice"
                      | [] => .error "unable to detect location"
                      | _ => .error "multiple locations"
        | _ => .error "TypeError: text"
  | _, _ => .error "TypeError: offsets"

/-- Lines 243-350 for one offset-bearing record that was not skipped as a
removable implicit interval: attach implicit points, locate, annotate. -/
def processAdd (text : List Char) (tms1 : List PyDict) (i : Nat)
    (timex1 : PyDict) :
    Except String (List PyDict × Option ((Nat × Nat) × PyDict)) :=
  match get_child_timepoints timex1 tms1 true with
  | .error e => .error e
  | .ok (bpt, ept) =>
      match attachPoint timex1 "beginPoint" bpt with
      | .error e => .error e
      | .ok tB =>
          match attachPoint tB "endPoint" ept with
          | .error e => .error e
          | .ok timex2 =>
              match locateAndAnnotate text timex2 with
              | .error e => .error e
              | .ok entry => .ok (tms1.set i timex2, some entry)

/-- Lines 234-246 for one offset-bearing record: record the interval parent,
then skip the record iff it is a removable implicit interval. -/
def processOffset (text : List Char) (tms : List PyDict) (i : Nat)
    (timex : PyDict) :
    Except String (List PyDict × Option ((Nat × Nat) × PyDict)) :=
  match applyParent timex tms with
  | .error e => .error e
  | .ok timex1 =>
      match is_removable_interval_timex timex1 (tms.set i timex1) with
      | .error e => .error e
      | .ok true => .ok (tms.set i timex1, Option.none)
      | .ok false => processAdd text (tms.set i timex1) i timex1

/-- One iteration of the layer-building loop (lines 232-350): records
without both `_start` and `_end` are ignored. -/
def processOne (text : List Char) (tms : List PyDict) (i : Nat) :
    Except String (List PyDict × Option ((Nat × Nat) × PyDict)) :=
  match tms.get? i with
  | Option.none => .error "index"
  | some timex =>
      if timex.hasKey "_start" && timex.hasKey "_end" then
        processOffset text tms i timex
      else .ok (tms, Option.none)

/-- The layer-building loop over all records, tracking the mutated record
list and the layer entries `(source index, (location, annotations))`. -/
def create_loop (text : List Char) :
    Nat → Nat → List PyDict → List (Nat × ((Nat × Nat) × PyDict)) →
    Except String (List PyDict × List (Nat × ((Nat × Nat) × PyDict)))
  | 0, _, tms, layer => .ok (tms, layer)
  | rem+1, i, tms, layer =>
      match processOne text tms i with
      | .error e => .error e
      | .ok (tms', Option.none) => create_loop text rem (i+1) tms' layer
      | .ok (tms', some entry) =>
          create_loop text rem (i+1) tms' (layer ++ [(i, entry)])

/-- The gold-timexes layer built by `create_new_text_obj` (lines 232-351)
from the raw timex records; metadata handling is out of scope. -/
def create_new_text_obj (text : List Char) (raw : List PyDict) :
    Except String (List (Nat × ((Nat × Nat) × PyDict))) :=
  match create_loop text raw.length 0 raw [] with
  | .error e => .error e
  | .ok (_, layer) => .ok layer

/-- The fields of another record that `is_removable_interval_timex` can
read: its `tid` value, whether it has `_start`, and its truthiness.  The
loop's in-place mutations preserve exactly these. -/
def timexAgrees (o r : PyDict) : Prop :=
  PyDict.get? o "tid" = PyDict.get? r "tid" ∧
  PyDict.hasKey o "_start" = PyDict.hasKey r "_start" ∧
  (o = [] ↔ r = [])

theorem timexAgrees_refl (d : PyDict) : timexAgrees d d :=
  ⟨rfl, rfl, Iff.rfl⟩

theorem timexAgrees_trans {a b c : PyDict} (h1 : timexAgrees a b)
    (h2 : timexAgrees b c) : timexAgrees a c :=
  ⟨h1.1.trans h2.1, h1.2.1.trans h2.2.1, h1.2.2.trans h2.2.2⟩

/-- Pointwise `timexAgrees` on optional records. -/
def optAgrees : Option PyDict → Option PyDict → Prop
  | Option.none, Option.none => True
  | some a, some b => timexAgrees a b
  | _, _ => False

theorem PyDict.hasKey_set_other (d : PyDict) (k k' : String) (v : AttrVal)
    (h : k' ≠ k) : (d.set k v).hasKey k' = d.hasKey k' := by
  unfold PyDict.hasKey
  rw [PyDict.get?_set_ne _ _ _ _ h]

theorem PyDict.hasKey_ne_nil (d : PyDict) (k : String)
    (h : d.hasKey k = true) : d ≠ [] := by
  cases d with
  | nil => simp [PyDict.hasKey, PyDict.get?] at h
  | cons a l => simp

/-- A key update away from `tid` and `_start` keeps a record agreeing with
its original. -/
theorem timexAgrees_set (d r : PyDict) (k : String) (v : AttrVal)
    (h : timexAgrees d r) (hk1 : k ≠ "tid") (hk2 : k ≠ "_start")
    (hdne : d ≠ []) :
    timexAgrees (d.set k v) r := by
  refine ⟨?_, ?_, ?_⟩
  · rw [PyDict.get?_set_ne _ _ _ _ (fun hc => hk1 hc.symm)]
    exact h.1
  · rw [PyDict.hasKey_set_other _ _ _ _ (fun hc => hk2 hc.symm)]
    exact h.2.1
  · constructor
    · intro hc
      exact absurd hc (PyDict.set_nonempty _ _ _)
    · intro hc
      exact absurd hc (fun hc2 => hdne (h.2.2.mpr hc2))

theorem getChildLoop_congr (cur1 cur2 : PyDict)
    (hbp : cur1.get? "beginPoint" = cur2.get? "beginPoint")
    (hep : cur1.get? "endPoint" = cur2.get? "endPoint") :
    ∀ (l1 l2 : List PyDict), List.Forall₂ timexAgrees l1 l2 →
    ∀ (a1 a2 : Option PyDict × Option PyDict),
      optAgrees a1.1 a2.1 → optAgrees a1.2 a2.2 →
      (∃ e, getChildLoop cur1 l1 a1 = .error e ∧
        getChildLoop cur2 l2 a2 = .error e) ∨
      (∃ r1 r2, getChildLoop cur1 l1 a1 = .ok r1 ∧
        getChildLoop cur2 l2 a2 = .ok r2 ∧
        optAgrees r1.1 r2.1 ∧ optAgrees r1.2 r2.2) := by
  intro l1 l2 h
  have hbk : cur1.hasKey "beginPoint" = cur2.hasKey "beginPoint" := by
    unfold PyDict.hasKey
    rw [hbp]
  have hek : cur1.hasKey "endPoint" = cur2.hasKey "endPoint" := by
    unfold PyDict.hasKey
    rw [hep]
  induction h with
  | nil =>
      intro a1 a2 h1 h2
      exact Or.inr ⟨a1, a2, rfl, rfl, h1, h2⟩
  | @cons o1 o2 r1 r2 hx hrest ih =>
      intro a1 a2 h1 h2
      obtain ⟨htid, hst, hne⟩ := hx
      have htk : o1.hasKey "tid" = o2.hasKey "tid" := by
        unfold PyDict.hasKey
        rw [htid]
      simp only [getChildLoop]
      by_cases ht : o1.hasKey "tid" = true
      · rw [if_pos ht, if_pos (show o2.hasKey "tid" = true by
          rw [← htk]; exact ht)]
        by_cases h0 : o1.get? "tid" = some (.str "t0")
        · rw [if_pos h0, if_pos (show o2.get? "tid" =
              some (AttrVal.str "t0") by rw [← htid]; exact h0)]
          exact ih a1 a2 h1 h2
        · rw [if_neg h0, if_neg (show ¬o2.get? "tid" =
              some (AttrVal.str "t0") by rw [← htid]; exact h0)]
          have hcb : (cur1.hasKey "beginPoint" = true ∧
              cur1.get? "beginPoint" = o1.get? "tid") ↔
              (cur2.hasKey "beginPoint" = true ∧
              cur2.get? "beginPoint" = o2.get? "tid") := by
            rw [hbk, hbp, htid]
          have hce : (cur1.hasKey "endPoint" = true ∧
              cur1.get? "endPoint" = o1.get? "tid") ↔
              (cur2.hasKey "endPoint" = true ∧
              cur2.get? "endPoint" = o2.get? "tid") := by
            rw [hek, hep, htid]
          refine ih _ _ ?_ ?_
          · by_cases hc : cur1.hasKey "beginPoint" = true ∧
                cur1.get? "beginPoint" = o1.get? "tid"
            · rw [if_pos hc, if_pos (hcb.mp hc)]
              exact ⟨htid, hst, hne⟩
            · rw [if_neg hc, if_neg (fun hh => hc (hcb.mpr hh))]
              exact h1
          · by_cases hc : cur1.hasKey "endPoint" = true ∧
                cur1.get? "endPoint" = o1.get? "tid"
            · rw [if_pos hc, if_pos (hce.mp hc)]
              exact ⟨htid, hst, hne⟩
            · rw [if_neg hc, if_neg (fun hh => hc (hce.mpr hh))]
              exact h2
      · rw [if_neg ht, if_neg (show ¬o2.hasKey "tid" = true by
          rw [← htk]; exact ht)]
        exact Or.inl ⟨"assert: tid", rfl, rfl⟩

theorem get_child_timepoints_congr (cur1 cur2 : PyDict)
    (htid : cur1.get? "tid" = cur2.get? "tid")
    (hbp : cur1.get? "beginPoint" = cur2.get? "beginPoint")
    (hep : cur1.get? "endPoint" = cur2.get? "endPoint")
    (l1 l2 : List PyDict) (h : List.Forall₂ timexAgrees l1 l2) :
    (∃ e, get_child_timepoints cur1 l1 false = .error e ∧
      get_child_timepoints cur2 l2 false = .error e) ∨
    (∃ r1 r2, get_child_timepoints cur1 l1 false = .ok r1 ∧
      get_child_timepoints cur2 l2 false = .ok r2 ∧
      optAgrees r1.1 r2.1 ∧ optAgrees r1.2 r2.2) := by
  have htk : cur1.hasKey "tid" = cur2.hasKey "tid" := by
    unfold PyDict.hasKey
    rw [htid]
  have hbk : cur1.hasKey "beginPoint" = cur2.hasKey "beginPoint" := by
    unfold PyDict.hasKey
    rw [hbp]
  have hek : cur1.hasKey "endPoint" = cur2.hasKey "endPoint" := by
    unfold PyDict.hasKey
    rw [hep]
  unfold get_child_timepoints
  by_cases ht : cur1.hasKey "tid" = true
  · rw [if_pos ht, if_pos (show cur2.hasKey "tid" = true by
      rw [← htk]; exact ht)]
    by_cases hbe : cur1.hasKey "beginPoint" = true ∨ cur1.hasKey "endPoint" = true
    · rw [if_pos hbe, if_pos (show cur2.hasKey "beginPoint" = true ∨
        cur2.hasKey "endPoint" = true by rw [← hbk, ← hek]; exact hbe)]
      rcases getChildLoop_congr cur1 cur2 hbp hep l1 l2 h
        (Option.none, Option.none) (Option.none, Option.none)
        trivial trivial with ⟨e, he1, he2⟩ | ⟨r1, r2, hr1, hr2, ha, hb⟩
      · rw [he1, he2]
        exact Or.inl ⟨e, rfl, rfl⟩
      · rw [hr1, hr2]
        obtain ⟨b1, e1⟩ := r1
        obtain ⟨b2, e2⟩ := r2
        exact Or.inr ⟨(b1, e1), (b2, e2), rfl, rfl, ha, hb⟩
    · rw [if_neg hbe, if_neg (show ¬(cur2.hasKey "beginPoint" = true ∨
        cur2.hasKey "endPoint" = true) by rw [← hbk, ← hek]; exact hbe)]
      exact Or.inr ⟨(Option.none, Option.none), (Option.none, Option.none),
        rfl, rfl, trivial, trivial⟩
  · rw [if_neg ht, if_neg (show ¬cur2.hasKey "tid" = true by
      rw [← htk]; exact ht)]
    exact Or.inl ⟨"assert: tid", rfl, rfl⟩

/-- Removability congruence: the decision reads only fields that the loop's
mutations preserve, so it is the same on the mutated records as on the
original ones. -/
theorem is_removable_congr (t1 t2 : PyDict)
    (htype : t1.get? "type" = t2.get? "type")
    (htid : t1.get? "tid" = t2.get? "tid")
    (hbp : t1.get? "beginPoint" = t2.get? "beginPoint")
    (hep : t1.get? "endPoint" = t2.get? "endPoint")
    (l1 l2 : List PyDict) (h : List.Forall₂ timexAgrees l1 l2) :
    is_removable_interval_timex t1 l1 = is_removable_interval_timex t2 l2 := by
  unfold is_removable_interval_timex
  rw [htype]
  rcases ht2 : t2.get? "type" with _ | tv
  · rfl
  · simp only []
    by_cases hd : tv = AttrVal.str "DURATION"
    · rw [if_pos hd, if_pos hd]
      rcases get_child_timepoints_congr t1 t2 htid hbp hep l1 l2 h with
        ⟨e, he1, he2⟩ | ⟨r1, r2, hr1, hr2, ha, hb⟩
      · rw [he1, he2]
      · rw [hr1, hr2]
        obtain ⟨b1, e1⟩ := r1
        obtain ⟨b2, e2⟩ := r2
        rcases b1 with _ | bb1 <;> rcases b2 with _ | bb2 <;>
          rcases e1 with _ | ee1 <;> rcases e2 with _ | ee2 <;>
            simp only [optAgrees] at ha hb <;> try rfl
        all_goals first
        | (exact absurd ha (by simp))
        | (exact absurd hb (by simp))
        | (obtain ⟨hat, has, han⟩ := ha
           obtain ⟨hbt, hbs, hbn⟩ := hb
           simp only []
           rw [has, hbs]
           rw [decide_eq_decide.mpr (not_congr han),
             decide_eq_decide.mpr (not_congr hbn)])
    · rw [if_neg hd, if_neg hd]

theorem list_get?_set_ne {α : Type} (l : List α) (i j : Nat) (a : α)
    (h : i ≠ j) : (l.set i a).get? j = l.get? j := by
  induction l generalizing i j with
  | nil => rfl
  | cons x rest ih =>
      cases i with
      | zero =>
          cases j with
          | zero => exact absurd rfl h
          | succ m => rfl
      | succ n =>
          cases j with
          | zero => rfl
          | succ m => exact ih n m (fun hc => h (by rw [hc]))

theorem forall₂_set_left {R : PyDict → PyDict → Prop} :
    ∀ (l r : List PyDict), List.Forall₂ R l r → ∀ (i : Nat) (y : PyDict),
      (∀ x, r.get? i = some x → R y x) →
      List.Forall₂ R (l.set i y) r := by
  intro l r h
  induction h with
  | nil => intro i y _; exact List.Forall₂.nil
  | @cons a b l1 l2 hx hrest ih =>
      intro i y hy
      cases i with
      | zero => exact List.Forall₂.cons (hy b rfl) hrest
      | succ n => exact List.Forall₂.cons hx (ih n y (fun x hx2 => hy x hx2))

theorem applyParent_shape (timex : PyDict) (tms : List PyDict) (t1 : PyDict)
    (h : applyParent timex tms = .ok t1) :
    t1 = timex ∨ ∃ od, t1 = timex.set "part_of_interval" (.odict od) := by
  unfold applyParent at h
  rcases hp : get_parent_of_interval timex tms with e | par
  · rw [hp] at h
    simp at h
  · rw [hp] at h
    rcases par with _ | ⟨itv, pl⟩
    · simp only [] at h
      injection h with h
      exact Or.inl h.symm
    · simp only [] at h
      by_cases hd : itv.get? "type" = some (AttrVal.str "DURATION")
      · rw [if_pos hd] at h
        rcases hc : convert_timex_to_ordered_dict itv with e | od
        · rw [hc] at h
          simp at h
        · rw [hc] at h
          injection h with h
          exact Or.inr ⟨od, h.symm⟩
      · rw [if_neg hd] at h
        simp at h

theorem attachPoint_agrees (t : PyDict) (k : String) (pt : Option PyDict)
    (t' : PyDict) (h : attachPoint t k pt = .ok t') (hk1 : k ≠ "tid")
    (hk2 : k ≠ "_start") (hne : t ≠ []) : timexAgrees t' t := by
  unfold attachPoint at h
  rcases pt with _ | p
  · injection h with h
    exact h ▸ timexAgrees_refl t
  · simp only [] at h
    by_cases hp : p ≠ []
    · rw [if_pos hp] at h
      rcases hc : convert_timex_to_ordered_dict p with e | od
      · rw [hc] at h
        simp at h
      · rw [hc] at h
        injection h with h
        exact h ▸ timexAgrees_set t t k (.odict od) (timexAgrees_refl t)
          hk1 hk2 hne
    · rw [if_neg hp] at h
      injection h with h
      exact h ▸ timexAgrees_refl t

theorem processAdd_ok (text : List Char) (tms1 : List PyDict) (i : Nat)
    (timex1 : PyDict) (hne : timex1 ≠ [])
    (res : List PyDict × Option ((Nat × Nat) × PyDict))
    (h : processAdd text tms1 i timex1 = .ok res) :
    ∃ timex2 entry, res = (tms1.set i timex2, some entry) ∧
      timexAgrees timex2 timex1 := by
  unfold processAdd at h
  rcases hch : get_child_timepoints timex1 tms1 true with e | pts
  · rw [hch] at h
    simp at h
  · rw [hch] at h
    obtain ⟨bpt, ept⟩ := pts
    simp only [] at h
    rcases hb : attachPoint timex1 "beginPoint" bpt with e | tB
    · rw [hb] at h
      simp at h
    · rw [hb] at h
      simp only [] at h
      have hBa : timexAgrees tB timex1 :=
        attachPoint_agrees _ _ _ _ hb (by decide) (by decide) hne
      have hBne : tB ≠ [] := fun hc => hne (hBa.2.2.mp hc)
      rcases he2 : attachPoint tB "endPoint" ept with e | timex2
      · rw [he2] at h
        simp at h
      · rw [he2] at h
        simp only [] at h
        have hEa : timexAgrees timex2 tB :=
          attachPoint_agrees _ _ _ _ he2 (by decide) (by decide) hBne
        rcases hl : locateAndAnnotate text timex2 with e | entry
        · rw [hl] at h
          simp at h
        · rw [hl] at h
          injection h with h
          exact ⟨timex2, entry, h.symm, timexAgrees_trans hEa hBa⟩

/-- Invariant proof for the layer-building loop: entering iteration `i` the
records at indices `≥ i` are still the original ones and every record only
ever agrees-preservingly mutated; an offset-bearing record `j ≥ i` ends up
in the layer exactly when `is_removable_interval_timex`, evaluated on the
original records, answers `false`. -/
theorem create_loop_spec (text : List Char) (raw : List PyDict) :
    ∀ (rem i : Nat) (tms : List PyDict)
      (layer : List (Nat × ((Nat × Nat) × PyDict)))
      (tmsF : List PyDict) (layerF : List (Nat × ((Nat × Nat) × PyDict))),
      i + rem = raw.length →
      tms.length = raw.length →
      (∀ j, i ≤ j → tms.get? j = raw.get? j) →
      List.Forall₂ timexAgrees tms raw →
      (∀ e, e ∈ layer → e.1 < i) →
      create_loop text rem i tms layer = .ok (tmsF, layerF) →
      (∀ e, e ∈ layer → e ∈ layerF) ∧
      (∀ e, e ∈ layerF → e ∈ layer ∨ i ≤ e.1) ∧
      (∀ j, i ≤ j → ∀ timexJ, raw.get? j = some timexJ →
        timexJ.hasKey "_start" = true → timexJ.hasKey "_end" = true →
        ∃ b, is_removable_interval_timex timexJ raw = .ok b ∧
          ((∃ loc ann, (j, (loc, ann)) ∈ layerF) ↔ b = false)) := by
  intro rem
  induction rem with
  | zero =>
      intro i tms layer tmsF layerF hsum hlen hget hF hlb hrun
      simp only [create_loop] at hrun
      injection hrun with h
      injection h with h1 h2
      subst h1
      subst h2
      refine ⟨fun e he => he, fun e he => Or.inl he, ?_⟩
      intro j hij timexJ hjt hsJ heJ
      exfalso
      have hle : raw.length ≤ j := by omega
      have hn : raw.get? j = Option.none := List.get?_eq_none.mpr hle
      rw [hn] at hjt
      simp at hjt
  | succ rem ih =>
      intro i tms layer tmsF layerF hsum hlen hget hF hlb hrun
      have hti : tms.get? i = raw.get? i := hget i (Nat.le_refl i)
      rcases hri : raw.get? i with _ | timex
      · exfalso
        have := List.get?_eq_none.mp hri
        omega
      · rw [hri] at hti
        simp only [create_loop] at hrun
        have hone0 : processOne text tms i =
            (if (timex.hasKey "_start" && timex.hasKey "_end") = true then
               processOffset text tms i timex
             else .ok (tms, Option.none)) := by
          unfold processOne
          rw [hti]
        by_cases hg : (timex.hasKey "_start" && timex.hasKey "_end") = true
        · -- the record carries offsets
          have hone1 : processOne text tms i = processOffset text tms i timex := by
            rw [hone0, if_pos hg]
          have hs0 : timex.hasKey "_start" = true := by
            have hgg := hg
            simp only [Bool.and_eq_true] at hgg
            exact hgg.1
          have hne0 : timex ≠ [] := PyDict.hasKey_ne_nil _ _ hs0
          rcases hap : applyParent timex tms with e | timex1
          · have herr : processOne text tms i = .error e := by
              rw [hone1]
              unfold processOffset
              rw [hap]
            rw [herr] at hrun
            simp at hrun
          · have hAgr1 : timexAgrees timex1 timex := by
              rcases applyParent_shape timex tms timex1 hap with rfl | ⟨od, rfl⟩
              · exact timexAgrees_refl _
              · exact timexAgrees_set _ _ _ _ (timexAgrees_refl _)
                  (by decide) (by decide) hne0
            have htype1 : timex1.get? "type" = timex.get? "type" := by
              rcases applyParent_shape timex tms timex1 hap with rfl | ⟨od, rfl⟩
              · rfl
              · exact PyDict.get?_set_ne _ _ _ _ (by decide)
            have htid1 : timex1.get? "tid" = timex.get? "tid" := by
              rcases applyParent_shape timex tms timex1 hap with rfl | ⟨od, rfl⟩
              · rfl
              · exact PyDict.get?_set_ne _ _ _ _ (by decide)
            have hbp1 : timex1.get? "beginPoint" = timex.get? "beginPoint" := by
              rcases applyParent_shape timex tms timex1 hap with rfl | ⟨od, rfl⟩
              · rfl
              · exact PyDict.get?_set_ne _ _ _ _ (by decide)
            have hep1 : timex1.get? "endPoint" = timex.get? "endPoint" := by
              rcases applyParent_shape timex tms timex1 hap with rfl | ⟨od, rfl⟩
              · rfl
              · exact PyDict.get?_set_ne _ _ _ _ (by decide)
            have hne1 : timex1 ≠ [] := fun hc => hne0 (hAgr1.2.2.mp hc)
            have hF1 : List.Forall₂ timexAgrees (tms.set i timex1) raw := by
              refine forall₂_set_left tms raw hF i timex1 ?_
              intro x hx
              rw [hri] at hx
              injection hx with hx
              subst hx
              exact hAgr1
            have hcong : is_removable_interval_timex timex1 (tms.set i timex1) =
                is_removable_interval_timex timex raw :=
              is_removable_congr _ _ htype1 htid1 hbp1 hep1 _ _ hF1
            have hlen1 : (tms.set i timex1).length = raw.length := by
              rw [List.length_set]
              exact hlen
            have hget1 : ∀ j, i + 1 ≤ j →
                (tms.set i timex1).get? j = raw.get? j := by
              intro j hj
              rw [list_get?_set_ne _ _ _ _ (by omega)]
              exact hget j (by omega)
            rcases hrm : is_removable_interval_timex timex1 (tms.set i timex1)
              with e | b
            · have herr : processOne text tms i = .error e := by
                rw [hone1]
                unfold processOffset
                rw [hap]
                simp only []
                rw [hrm]
              rw [herr] at hrun
              simp at hrun
            · cases b with
              | false =>
                  rcases hadd : processAdd text (tms.set i timex1) i timex1
                    with e | res
                  · have herr : processOne text tms i = .error e := by
                      rw [hone1]
                      unfold processOffset
                      rw [hap]
                      simp only []
                      rw [hrm]
                      simp only []
                      rw [hadd]
                    rw [herr] at hrun
                    simp at hrun
                  · obtain ⟨timex2, entry, hres, hAgr2⟩ :=
                      processAdd_ok text _ i timex1 hne1 res hadd
                    have hone : processOne text tms i =
                        .ok ((tms.set i timex1).set i timex2, some entry) := by
                      rw [hone1]
                      unfold processOffset
                      rw [hap]
                      simp only []
                      rw [hrm]
                      simp only []
                      rw [hadd, hres]
                    rw [hone] at hrun
                    simp only [] at hrun
                    have hAgrF : timexAgrees timex2 timex :=
                      timexAgrees_trans hAgr2 hAgr1
                    have hF2 : List.Forall₂ timexAgrees
                        ((tms.set i timex1).set i timex2) raw := by
                      refine forall₂_set_left _ raw hF1 i timex2 ?_
                      intro x hx
                      rw [hri] at hx
                      injection hx with hx
                      subst hx
                      exact hAgrF
                    have hlen2 : ((tms.set i timex1).set i timex2).length =
                        raw.length := by
                      rw [List.length_set, List.length_set]
                      exact hlen
                    have hget2 : ∀ j, i + 1 ≤ j →
                        ((tms.set i timex1).set i timex2).get? j =
                          raw.get? j := by
                      intro j hj
                      rw [list_get?_set_ne _ _ _ _ (by omega),
                        list_get?_set_ne _ _ _ _ (by omega)]
                      exact hget j (by omega)
                    obtain ⟨hpres, horig, hiff⟩ := ih (i+1) _
                      (layer ++ [(i, entry)]) tmsF layerF (by omega) hlen2
                      hget2 hF2
                      (by
                        intro e he
                        rcases List.mem_append.mp he with he | he
                        · exact Nat.lt_succ_of_lt (hlb e he)
                        · have : e = (i, entry) := List.mem_singleton.mp he
                          rw [this]
                          exact Nat.lt_succ_self i)
                      hrun
                    refine ⟨fun e he =>
                      hpres e (List.mem_append.mpr (Or.inl he)),
                      fun e he => ?_, ?_⟩
                    · rcases horig e he with h | h
                      · rcases List.mem_append.mp h with h | h
                        · exact Or.inl h
                        · right
                          have : e = (i, entry) := List.mem_singleton.mp h
                          rw [this]
                      · exact Or.inr (by omega)
                    · intro j hij timexJ hjt hsJ heJ
                      rcases Nat.eq_or_lt_of_le hij with heq | hlt
                      · subst heq
                        rw [hri] at hjt
                        injection hjt with hjt
                        subst hjt
                        refine ⟨false, by rw [← hcong]; exact hrm, ?_⟩
                        constructor
                        · intro _
                          rfl
                        · intro _
                          exact ⟨entry.1, entry.2, hpres _
                            (List.mem_append.mpr (Or.inr
                              (List.mem_singleton.mpr rfl)))⟩
                      · exact hiff j hlt timexJ hjt hsJ heJ
              | true =>
                  have hone : processOne text tms i =
                      .ok (tms.set i timex1, Option.none) := by
                    rw [hone1]
                    unfold processOffset
                    rw [hap]
                    simp only []
                    rw [hrm]
                  rw [hone] at hrun
                  simp only [] at hrun
                  obtain ⟨hpres, horig, hiff⟩ := ih (i+1) (tms.set i timex1)
                    layer tmsF layerF (by omega) hlen1 hget1 hF1
                    (fun e he => Nat.lt_succ_of_lt (hlb e he)) hrun
                  refine ⟨hpres, fun e he => ?_, ?_⟩
                  · rcases horig e he with h | h
                    · exact Or.inl h
                    · exact Or.inr (by omega)
                  · intro j hij timexJ hjt hsJ heJ
                    rcases Nat.eq_or_lt_of_le hij with heq | hlt
                    · subst heq
                      rw [hri] at hjt
                      injection hjt with hjt
                      subst hjt
                      refine ⟨true, by rw [← hcong]; exact hrm, ?_⟩
                      constructor
                      · intro hmem
                        exfalso
                        obtain ⟨loc, ann, hmem⟩ := hmem
                        rcases horig _ hmem with h | h
                        · exact Nat.lt_irrefl i (hlb _ h)
                        · omega
                      · intro hfalse
                        exact absurd hfalse (by decide)
                    · exact hiff j hlt timexJ hjt hsJ heJ
        · -- no offsets: the iteration does nothing
          have hone : processOne text tms i = .ok (tms, Option.none) := by
            rw [hone0, if_neg hg]
          rw [hone] at hrun
          simp only [] at hrun
          obtain ⟨hpres, horig, hiff⟩ := ih (i+1) tms layer tmsF layerF
            (by omega) hlen (fun j hj => hget j (by omega)) hF
            (fun e he => Nat.lt_succ_of_lt (hlb e he)) hrun
          refine ⟨hpres, fun e he => ?_, ?_⟩
          · rcases horig e he with h | h
            · exact Or.inl h
            · exact Or.inr (by omega)
          · intro j hij timexJ hjt hsJ heJ
            rcases Nat.eq_or_lt_of_le hij with heq | hlt
            · exfalso
              subst heq
              rw [hri] at hjt
              injection hjt with hjt
              subst hjt
              exact hg (by rw [hsJ, heJ]; rfl)
            · exact hiff j hlt timexJ hjt hsJ heJ

/-- **C4**: whenever the timexes-layer construction of `create_new_text_obj`
succeeds, an offset-bearing raw record reaches the output layer if and only
if it is not a removable implicit interval: omitted exactly when its `type`
is `'DURATION'` and both its `beginPoint` and `endPoint` references resolve
(skipping records with `tid` `'t0'`) to records that carry a real `_start`
text offset.  Removability is evaluated on the original records — the
loop's in-place mutations (attaching `part_of_interval` and replacing point
references by ordered dicts) never change the decision. -/
theorem create_new_text_obj_layer_spec
    (text : List Char) (raw : List PyDict)
    (layer : List (Nat × ((Nat × Nat) × PyDict)))
    (hok : create_new_text_obj text raw = .ok layer)
    (i : Nat) (timex : PyDict) (hi : raw.get? i = some timex)
    (hs : timex.hasKey "_start" = true)
    (he : timex.hasKey "_end" = true) :
    ∃ b, is_removable_interval_timex timex raw = .ok b ∧
      ((∃ loc ann, (i, (loc, ann)) ∈ layer) ↔ b = false) := by
  unfold create_new_text_obj at hok
  rcases hrun : create_loop text raw.length 0 raw [] with e | pr
  · rw [hrun] at hok
    simp at hok
  · obtain ⟨tmsF, layerF⟩ := pr
    rw [hrun] at hok
    simp only [] at hok
    injection hok with hok
    subst hok
    obtain ⟨_, _, hiff⟩ := create_loop_spec text raw raw.length 0 raw []
      tmsF layerF (by omega) rfl (fun j _ => rfl)
      (List.forall₂_same.mpr (fun x _ => timexAgrees_refl x))
      (fun e he => absurd he (List.not_mem_nil e))
      hrun
    exact hiff i (Nat.zero_le i) timex hi hs he

/-- A raw record with a real text span: an explicit `DATE` point. -/
def c4r0 : PyDict :=
  [("tid", .str "t1"), ("type", .str "DATE"), ("_start", .nat 0),
   ("_end", .nat 3)]

/-- A raw record with a real text span: an explicit `TIME` point. -/
def c4r1 : PyDict :=
  [("tid", .str "t2"), ("type", .str "TIME"), ("_start", .nat 4),
   ("_end", .nat 8)]

/-- An offset-bearing `DURATION` interval whose `beginPoint` and `endPoint`
both resolve to explicit records — the removable case. -/
def c4r2 : PyDict :=
  [("tid", .str "t3"), ("type", .str "DURATION"),
   ("beginPoint", .str "t1"), ("endPoint", .str "t2"),
   ("_start", .nat 0), ("_end", .nat 8)]

def c4text : List Char := "abc defg".toList

def c4raw : List PyDict := [c4r0, c4r1, c4r2]

/-- The interval's ordered dict as attached under `part_of_interval`. -/
def c4od2 : PyDict :=
  [("tid", .str "t3"), ("type", .str "DURATION"),
   ("begin_point", .str "t1"), ("end_point", .str "t2")]

def c4ann0 : PyDict :=
  [("tid", .str "t1"), ("type", .str "DATE"),
   ("part_of_interval", .odict c4od2)]

def c4ann1 : PyDict :=
  [("tid", .str "t2"), ("type", .str "TIME"),
   ("part_of_interval", .odict c4od2)]

/-- The layer produced on `c4raw`: the two explicit points, not the
interval. -/
def c4layerVal : List (Nat × ((Nat × Nat) × PyDict)) :=
  [(0, ((0, 3), c4ann0)), (1, ((4, 8), c4ann1))]

/-- Witness for C4: on `c4raw` the interval record (index 2) is omitted as
removable while the explicit point (index 0) is added. -/
theorem create_new_text_obj_layer_spec_witness :
    (∃ b, is_removable_interval_timex c4r2 c4raw = .ok b ∧
      ((∃ loc ann, (2, (loc, ann)) ∈ c4layerVal) ↔ b = false)) ∧
    (∃ b, is_removable_interval_timex c4r0 c4raw = .ok b ∧
      ((∃ loc ann, (0, (loc, ann)) ∈ c4layerVal) ↔ b = false)) :=
  ⟨create_new_text_obj_layer_spec c4text c4raw c4layerVal rfl 2 c4r2 rfl
    rfl rfl,
   create_new_text_obj_layer_spec c4text c4raw c4layerVal rfl 0 c4r0 rfl
    rfl rfl⟩
